import Mathlib

/-!
Shallow embedding of the template-filling engine of
`app/utils/word_processor.py` (class `WordProcessor`), together with proofs
about its specified behaviour.

Python strings are modelled as `List Char`; a data record (Python dict,
insertion ordered) is modelled as an association list.  A `docx` run is
modelled by the attributes the source reads and writes (text, bold, italic,
underline, font size, font name, highlight); a paragraph is its ordered run
list and its rendered text is the concatenation of its runs' text, which is
what `paragraph.text` returns for the documents manipulated here.
-/

namespace WordToPdf

/-- The six characters Python's `str.strip()` / `str.split()` treat as
whitespace (for the ASCII range used by the engine). -/
def pyIsSpace (c : Char) : Bool :=
  c = ' ' || c = '\t' || c = '\n' || c = '\r' || c = '\x0b' || c = '\x0c'

/-- Python `str.lower`, per character (ASCII, which covers the engine's keys
and sentinels). -/
def pyLower (s : List Char) : List Char := s.map Char.toLower

/-- Python `str.lstrip()`. -/
def pyLStrip (s : List Char) : List Char := s.dropWhile pyIsSpace

/-- Python `str.strip()`: drop leading and trailing whitespace. -/
def pyStrip (s : List Char) : List Char :=
  ((s.dropWhile pyIsSpace).reverse.dropWhile pyIsSpace).reverse

/-- `Starts pat s`: `pat` is an initial segment of `s` (the proposition behind
Python's `str.startswith`). -/
def Starts (pat s : List Char) : Prop := ∃ t, pat ++ t = s

instance startsDec : (pat s : List Char) → Decidable (Starts pat s)
  | [], s => isTrue ⟨s, rfl⟩
  | _ :: _, [] => isFalse (by rintro ⟨t, ht⟩; simp at ht)
  | a :: as, b :: bs =>
    match startsDec as bs with
    | isTrue h =>
      if hab : a = b then
        isTrue (by obtain ⟨t, ht⟩ := h; exact ⟨t, by rw [List.cons_append, ht, hab]⟩)
      else isFalse (by rintro ⟨t, ht⟩; injection ht with h1 h2; exact hab h1)
    | isFalse h =>
      isFalse (by rintro ⟨t, ht⟩; injection ht with h1 h2; exact h ⟨t, h2⟩)

/-- `pat` occurs in `s` at position `i`. -/
def OccursAt (pat s : List Char) (i : Nat) : Prop := Starts pat (s.drop i)

/-- Python `str.find`: index of the leftmost occurrence of `pat` in `s`
(`none` models the `-1` result). -/
def findSub (s pat : List Char) : Option Nat :=
  if Starts pat s then some 0
  else
    match s with
    | [] => none
    | _ :: cs => (findSub cs pat).map (· + 1)

/-- Python's `pat in s` substring test. -/
def containsSub (pat s : List Char) : Bool := (findSub s pat).isSome

/-- Number of positions of `s` at which `pat` occurs (overlapping positions
all counted); used to state uniqueness of an occurrence. -/
def countOcc (pat s : List Char) : Nat :=
  (if Starts pat s then 1 else 0) +
    match s with
    | [] => 0
    | _ :: cs => countOcc pat cs

/-- Fuel-indexed helper for `replaceSub`; the fuel only witnesses
termination (any fuel at least the length of `s` gives the same result, see
`replaceSubF_congr`). -/
def replaceSubF (fuel : Nat) (pat rep s : List Char) : List Char :=
  match fuel, s with
  | 0, s => s
  | _ + 1, [] => []
  | fuel + 1, c :: cs =>
    if pat ≠ [] ∧ Starts pat (c :: cs) then
      rep ++ replaceSubF fuel pat rep ((c :: cs).drop pat.length)
    else
      c :: replaceSubF fuel pat rep cs

/-- Python `s.replace(pat, rep)` for a non-empty `pat`: rewrite leftmost
non-overlapping occurrences.  (The engine only calls this with the brace
token `"{name}"`, which is never empty; for `pat = []` the recursion makes
no progress and returns `s` unchanged.) -/
def replaceSub (pat rep s : List Char) : List Char := replaceSubF s.length pat rep s

/-- `re.findall(r'\{([^}]+)\}', text)`: names of the brace tokens of `text`,
leftmost non-overlapping, each name one-or-more non-`}` characters.  On a
`'{'` the regex greedily takes non-`}` characters up to the next `'}'`; if
that group is empty the engine backtracks and retries from the following
character. -/
def findallF (fuel : Nat) (s : List Char) : List (List Char) :=
  match fuel, s with
  | 0, _ => []
  | _ + 1, [] => []
  | fuel + 1, c :: cs =>
    if c = '{' then
      match cs.span (fun d => ¬ d = '}') with
      | (name, _ :: after) =>
        if name = [] then findallF fuel cs else name :: findallF fuel after
      | (_, []) => []
    else findallF fuel cs

def findall (s : List Char) : List (List Char) := findallF s.length s

def splitWSF (fuel : Nat) (s : List Char) : List (List Char) :=
  match fuel, s with
  | 0, _ => []
  | _ + 1, [] => []
  | fuel + 1, c :: cs =>
    if pyIsSpace c then splitWSF fuel cs
    else
      match (c :: cs).span (fun d => !pyIsSpace d) with
      | (w, rest) => w :: splitWSF fuel rest

/-- Python `str.split()` (no argument): maximal runs of non-whitespace. -/
def splitWS (s : List Char) : List (List Char) := splitWSF s.length s

/-- `' '.join(chunks)`. -/
def joinSpace : List (List Char) → List Char
  | [] => []
  | [w] => w
  | w :: ws => w ++ ' ' :: joinSpace ws

/-- `WordProcessor._normalize_key`: lowercase, collapse internal whitespace to
single spaces, trim ends.  An empty (falsy) key normalizes to the empty
string. -/
def normalize_key (key : List Char) : List Char :=
  if key = [] then []
  else joinSpace (splitWS (pyLower (pyStrip key)))

/-- A run of a paragraph: the text span plus the formatting attributes the
engine reads or writes (`bold`/`italic`/`underline` are tri-state, font size
and name optional, highlight an optional colour code). -/
structure Run where
  text : List Char
  bold : Option Bool := none
  italic : Option Bool := none
  underline : Option Bool := none
  fontSize : Option Nat := none
  fontName : Option (List Char) := none
  highlight : Option Nat := none
deriving Repr, DecidableEq

/-- A paragraph is its ordered list of runs. -/
abbrev Paragraph := List Run

/-- `paragraph.text`: concatenation of the runs' text, in order. -/
def renderedText : Paragraph → List Char
  | [] => []
  | r :: rs => r.text ++ renderedText rs

/-- A value of the data record: `none` models Python `None`, `some s` a
string value. -/
abbrev Value := Option (List Char)

/-- An insertion-ordered data record (Python dict of field name to value). -/
abbrev Data := List (List Char × Value)

/-- Null/sentinel normalization of a raw value (word_processor.py lines
186-193): `None` and the exact case-insensitive sentinels `'nan'`, `'none'`,
`''` become empty; any other string is stripped of leading/trailing
whitespace. -/
def sentinelValue (value : Value) : List Char :=
  match value with
  | none => []
  | some s =>
    if pyLower s = "nan".toList ∨ pyLower s = "none".toList ∨ pyLower s = [] then []
    else pyStrip s

/-- The email-field test (lines 195-201): the placeholder name contains
`"email"` case-insensitively, or the (already normalized) value is non-empty
and contains both `'@'` and `'.'`. -/
def isEmailField (placeholder : List Char) (rv : List Char) : Bool :=
  (decide (placeholder ≠ []) && containsSub "email".toList (pyLower placeholder)) ||
    (decide (rv ≠ []) && rv.contains '@' && rv.contains '.')

/-- `value.replace(' ', ' ')`: every space becomes a non-breaking
space. -/
def replaceSpaces (s : List Char) : List Char :=
  s.map (fun c => if c = ' ' then '\u00A0' else c)

/-- `value.replace('@', '@⁠')`: every `'@'` gets a zero-width no-break
marker right after it. -/
def addAtMarkers (s : List Char) : List Char :=
  s.flatMap (fun c => if c = '@' then ['@', '\u2060'] else [c])

/-- The full value transform of `_replace_placeholder_in_paragraph` (lines
186-209), duplicated verbatim at lines 275-300 and 312-337 of the source:
sentinel normalization and strip, then the email guard for email-like
values. -/
def replacementFor (placeholder : List Char) (value : Value) : List Char :=
  let rv := sentinelValue value
  if isEmailField placeholder rv && decide (rv ≠ []) then
    addAtMarkers (replaceSpaces rv)
  else rv

/-- `WordProcessor._is_address_2_or_3_placeholder`. -/
def is_address_2_or_3_placeholder (placeholder : List Char) : Bool :=
  if placeholder = [] then false
  else
    let pl := pyLower (pyStrip placeholder)
    let pats : List (List Char) :=
      ["address 2".toList, "address2".toList, "address line 2".toList,
       "addressline2".toList, "address 3".toList, "address3".toList,
       "address line 3".toList, "addressline3".toList, "addr 2".toList,
       "addr2".toList, "addr 3".toList, "addr3".toList,
       "address2".toList, "address3".toList]
    let exacts : List (List Char) :=
      ["address 2".toList, "address2".toList, "address 3".toList,
       "address3".toList, "addr 2".toList, "addr2".toList, "addr 3".toList,
       "addr3".toList, "address line 2".toList, "address line2".toList,
       "addressline2".toList, "address line 3".toList, "address line3".toList,
       "addressline3".toList]
    pats.any (fun p => containsSub p pl) || exacts.any (fun p => p = pl)

/-- `WordProcessor._is_empty_value`. -/
def is_empty_value (value : Value) : Bool :=
  match value with
  | none => true
  | some s =>
    let t := pyStrip s
    t = [] || (pyLower t = "nan".toList || pyLower t = "none".toList || pyLower t = [])

/-- `WordProcessor._remove_highlighting`: clears the highlight attribute
through both its representations (high-level field and structural node);
on the model a run has a single highlight field, so both channels collapse
to setting it to `none`, which is design note §9's normalized state. -/
def removeHighlighting (r : Run) : Run := { r with highlight := none }

/-- Replace the run at index `i` (identity when out of range, like the
source's index guards). -/
def setRun : List Run → Nat → (Run → Run) → List Run
  | [], _, _ => []
  | r :: rest, 0, f => f r :: rest
  | r :: rest, n+1, f => r :: setRun rest n f

def stripHighlightGo : List Run → Nat → Nat → Nat → List Run
  | [], _, _, _ => []
  | r :: rest, i, a, b =>
    (if a ≤ i ∧ i ≤ b then removeHighlighting r else r) :: stripHighlightGo rest (i+1) a b

/-- `WordProcessor._remove_highlighting_from_all_runs`: strip highlighting
from the runs with indices in `[a, min (b+1) len)`. -/
def remove_highlighting_from_all_runs (p : Paragraph) (a b : Nat) : Paragraph :=
  stripHighlightGo p 0 a b

/-- Index of the first run whose text contains `pat` (the cheap-path scan of
lines 212-233). -/
def firstContaining (pat : List Char) : List Run → Option Nat
  | [] => none
  | r :: rest =>
    if containsSub pat r.text then some 0 else (firstContaining pat rest).map (· + 1)

/-- The offset walk of lines 246-261: find the run containing the
placeholder's first character (`start_run_idx`, assigned once) and the first
run containing its last character (`end_run_idx`, with `break`). -/
def scanIdxs (rs : List Run) (i pos : Nat) (st : Option Nat) (phS phE : Nat) :
    Option Nat × Option Nat :=
  match rs with
  | [] => (st, none)
  | r :: rest =>
    let rlen := r.text.length
    let st1 := if st = none ∧ pos ≤ phS ∧ phS < pos + rlen then some i else st
    if pos < phE ∧ phE ≤ pos + rlen then (st1, some i)
    else scanIdxs rest (i+1) (pos + rlen) st1 phS phE

/-- The second offset walk of lines 343-362: text of the start run before the
occurrence and text of the end run after it (`break` at the end run).  The
subtractions cannot underflow on the paths on which the engine calls this. -/
def offsetsGo (rs : List Run) (i pos si ei phS phE : Nat) (sb ea : List Char) :
    List Char × List Char :=
  match rs with
  | [] => (sb, ea)
  | r :: rest =>
    if i = si then
      offsetsGo rest (i+1) (pos + r.text.length) si ei phS phE (r.text.take (phS - pos)) ea
    else if i = ei then (sb, r.text.drop (phE - pos))
    else offsetsGo rest (i+1) (pos + r.text.length) si ei phS phE sb ea

/-- Lines 369-374: the start run gets the prefix plus the replacement value
(with its highlight stripped), guarded by the source's index check. -/
def spliceStart (p : Paragraph) (si : Nat) (newText : List Char) : Paragraph :=
  if si < p.length then
    setRun p si (fun r => { r with text := newText, highlight := none })
  else p

/-- Lines 376-380: remove the runs strictly between start and end (the
reversed removal order of the source keeps every index valid, so the net
effect is dropping positions `si+1 .. ei-1`). -/
def removeMiddle (p : Paragraph) (si ei : Nat) : Paragraph :=
  p.take (si+1) ++ p.drop ei

/-- Lines 405-417: the freshly appended suffix run, copying bold, italic and
font size from the snapshot when one was taken (the snapshot dict is always
truthy when present). -/
def mkSuffixRun (snap : Option Run) (ea : List Char) : Run :=
  match snap with
  | some r0 => { text := ea, bold := r0.bold, italic := r0.italic,
                 fontSize := r0.fontSize, highlight := none }
  | none => { text := ea, highlight := none }

/-- The split path of `_replace_placeholder_in_paragraph` (lines 308-419):
strip highlighting from the runs of the occurrence (lines 364-366), rewrite
the start run, remove the middle runs, rewrite (or recreate) the end run.
The formatting snapshot is read from the run list after the middle runs were
removed, still using the pre-removal index `ei` (lines 382-392). -/
def multiSplice (p : Paragraph) (replacement : List Char) (phS phE si ei : Nat) :
    Paragraph × Bool :=
  let sbea := offsetsGo p 0 0 si ei phS phE [] []
  let p3 := removeMiddle
    (spliceStart (remove_highlighting_from_all_runs p si ei) si (sbea.1 ++ replacement))
    si ei
  let snap := p3.get? ei
  -- lines 394-417
  if ei > si then
    if ei - (ei - (si+1)) < p3.length ∧ si < ei - (ei - (si+1)) then
      (setRun p3 (ei - (ei - (si+1))) (fun r => { r with text := sbea.2, highlight := none }),
        true)
    else if sbea.2 ≠ [] then
      (p3 ++ [mkSuffixRun snap sbea.2], true)
    else (p3, true)
  else (p3, true)

/-- `WordProcessor._replace_placeholder_in_paragraph` (lines 174-419).
Returns the rewritten paragraph and the boolean result. -/
def replace_placeholder_in_paragraph (p : Paragraph) (placeholder : List Char)
    (value : Value) : Paragraph × Bool :=
  let phText := '{' :: (placeholder ++ ['}'])
  if ¬ containsSub phText (renderedText p) then (p, false)
  else
    let replacement := replacementFor placeholder value
    match firstContaining phText p with
    | some i =>
      -- cheap path (lines 212-233): local replace inside that run, highlight
      -- stripped before and after
      (setRun p i
        (fun r => { r with text := replaceSub phText replacement r.text, highlight := none }),
        true)
    | none =>
      let full := renderedText p
      match findSub full phText with
      | none => (p, false)  -- line 240: find returned -1
      | some phS =>
        let phE := phS + phText.length
        match scanIdxs p 0 0 none phS phE with
        | (some si, some ei) =>
          if si = ei then
            -- lines 266-306: single-run safety path; it recomputes the same
            -- replacement value and does the same local replace
            if si < p.length then
              (setRun p si
                (fun r => { r with text := replaceSub phText replacement r.text, highlight := none }),
                true)
            else (p, false)
          else multiSplice p replacement phS phE si ei
        | _ => (p, false)  -- line 263: a boundary run was not located

/-- Association-list lookup (Python dict access by key). -/
def alookup {β : Type} : List (List Char × β) → List Char → Option β
  | [], _ => none
  | kv :: rest, key => if kv.1 = key then some kv.2 else alookup rest key

/-- Association-list update in place (Python dict assignment to an existing
key keeps its insertion position). -/
def assocSet {β : Type} : List (List Char × β) → List Char → β → List (List Char × β)
  | [], _, _ => []
  | kv :: rest, key, w =>
    if kv.1 = key then (kv.1, w) :: rest else kv :: assocSet rest key w

/-- The `normalized_data` dict of `_find_placeholder_matches` (lines
469-477): first key of each normalization class wins, except that a key that
is literally equal to its own normalized form overwrites the class entry. -/
def normStep (acc : List (List Char × (List Char × Value))) (kv : List Char × Value) :
    List (List Char × (List Char × Value)) :=
  let nk := normalize_key kv.1
  match alookup acc nk with
  | none => acc ++ [(nk, kv)]
  | some _ => if kv.1 = nk then assocSet acc nk kv else acc

def buildNormalizedData (d : Data) : List (List Char × (List Char × Value)) :=
  d.foldl normStep []

/-- `WordProcessor._find_placeholder_matches` (lines 460-487): map each
discovered placeholder to `(original_key, value)` under normalized lookup.
(A placeholder found twice is re-assigned the same pair in the source; the
model keeps the first insertion, which preserves both content and dict
iteration order.) -/
def find_placeholder_matches (text : List Char) (d : Data) :
    List (List Char × (List Char × Value)) :=
  let nd := buildNormalizedData d
  (findall text).foldl
    (fun acc ph =>
      match alookup nd (normalize_key ph) with
      | some kv => if (alookup acc ph).isSome then acc else acc ++ [(ph, kv)]
      | none => acc)
    []

/-- The exact-match pass over one paragraph (lines 517-523 / 586-592): one
replacement attempt per record key, in insertion order. -/
def exactPass (d : Data) (p : Paragraph) : Paragraph :=
  d.foldl (fun q kv => (replace_placeholder_in_paragraph q kv.1 kv.2).1) p

/-- One iteration of the normalized-match loop (lines 531-549 / 599-617).
State: current paragraph, `current_text`, and whether the paragraph was
marked for removal. -/
def normalizedStep (trainee : Bool) (st : Paragraph × List Char × Bool)
    (m : List Char × (List Char × Value)) : Paragraph × List Char × Bool :=
  if containsSub ('{' :: (m.1 ++ ['}'])) st.2.1 then
    let is23 := is_address_2_or_3_placeholder m.1
    let isEmp := is_empty_value m.2.2
    let q1 := (replace_placeholder_in_paragraph st.1 m.1 m.2.2).1
    let fl1 := st.2.2 ||
      (trainee && is23 && isEmp && decide (pyStrip (renderedText q1) = []))
    (q1, renderedText q1, fl1)
  else st

/-- Whole processing of one paragraph inside `fill_placeholders` (lines
513-565 for free-standing paragraphs, identical code at lines 583-633 for
table-cell paragraphs): exact pass, then normalized pass, then the trainee
address-2/3 check against the original text.  Returns the rewritten
paragraph and whether it was marked for removal. -/
def processParagraph (trainee : Bool) (d : Data) (p : Paragraph) : Paragraph × Bool :=
  let original := renderedText p
  let p1 := exactPass d p
  let ms := find_placeholder_matches (renderedText p1) d
  let st := ms.foldl (normalizedStep trainee) (p1, renderedText p1, false)
  let flB := trainee && (findall original).any is_address_2_or_3_placeholder &&
    decide (pyStrip (renderedText st.1) = [])
  (st.1, st.2.2 || flB)

/-- The document tree the engine walks: free-standing paragraphs and tables
(tables → rows → cells → paragraphs). -/
structure DocX where
  paragraphs : List Paragraph
  tables : List (List (List (List Paragraph)))
deriving Repr, DecidableEq

/-- Drop the paragraphs marked for removal (lines 567-575 / 635-643: the
collected indices are deleted in reverse order, which keeps indices stable,
so the net effect is keeping exactly the unmarked paragraphs in order). -/
def pruneProcessed (l : List (Paragraph × Bool)) : List Paragraph :=
  (l.filter (fun pr => !pr.2)).map Prod.fst

/-- Table-cell processing (lines 577-643). -/
def fillCell (trainee : Bool) (d : Data) (cell : List Paragraph) : List Paragraph :=
  pruneProcessed (cell.map (processParagraph trainee d))

/-- The in-memory document rewrite done by `fill_placeholders` between
loading the template and saving the result (lines 508-643). -/
def fillDocument (trainee : Bool) (d : Data) (doc : DocX) : DocX :=
  { paragraphs := pruneProcessed (doc.paragraphs.map (processParagraph trainee d)),
    tables := doc.tables.map (fun t => t.map (fun row => row.map (fillCell trainee d))) }

/-- `os.path.basename` for the POSIX paths the service uses. -/
def basenameOf (path : List Char) : List Char :=
  path.foldl (fun acc c => if c = '/' then [] else acc ++ [c]) []

/-- Line 501: `'trainee' in os.path.basename(template_path).lower()`. -/
def isTraineeTemplate (templatePath : List Char) : Bool :=
  containsSub "trainee".toList (pyLower (basenameOf templatePath))

/-- `WordProcessor.fill_placeholders` (lines 489-647), as the document
transformation it performs: the file-existence check, template parsing and
the final `doc.save` are I/O done by the caller's environment and the docx
library; the tree rewrite between them is `fillDocument`. -/
def fill_placeholders (templatePath : List Char) (doc : DocX) (d : Data) : DocX :=
  fillDocument (isTraineeTemplate templatePath) d doc

/-- Specification-side characterization of the normalized lookup, used to
state the corrected form of the key-collision rule: the winning record entry
for a normalized name `n` is the key literally equal to `n` when the record
has one, and otherwise the first record entry whose key normalizes to `n`. -/
def resolveSpec (d : Data) (n : List Char) : Option (List Char × Value) :=
  match d.find? (fun kv => decide (kv.1 = n ∧ normalize_key kv.1 = n)) with
  | some kv => some kv
  | none => d.find? (fun kv => decide (normalize_key kv.1 = n))

/-- A string with no brace characters (it can contain no placeholder token
and no part of one). -/
def braceFree (l : List Char) : Prop := '{' ∉ l ∧ '}' ∉ l

/-- All runs of a document: free-standing paragraphs and every table-cell
paragraph. -/
def allRunsDoc (doc : DocX) : List Run :=
  doc.paragraphs.flatten ++
    (doc.tables.map (fun t =>
      (t.map (fun row => (row.map (fun cell => cell.flatten)).flatten)).flatten)).flatten

/-- All paragraphs of a document, free-standing or in a table cell. -/
def allParas (doc : DocX) : List Paragraph :=
  doc.paragraphs ++
    (doc.tables.map (fun t => (t.map (fun row => row.flatten)).flatten)).flatten

/-- Specification-side description of a paragraph text's placeholder layout:
a leading segment, then for each entry a token `\x7bname\x7d` (the entry
carries the name, the value the engine will insert for it, and the text
segment that follows the token).  `tokText` renders the layout as the
template text. -/
def tokText : List Char → List ((List Char × Value) × List Char) → List Char
  | s0, [] => s0
  | s0, x :: rest => s0 ++ ('{' :: (x.1.1 ++ ['}'])) ++ tokText x.2 rest

/-- The same layout with every token replaced by the transformed value the
engine inserts for it: the claimed round-trip result. -/
def tokFilledText : List Char → List ((List Char × Value) × List Char) → List Char
  | s0, [] => s0
  | s0, x :: rest => s0 ++ replacementFor x.1.1 x.1.2 ++ tokFilledText x.2 rest

/-- Merge a replaced token back into the layout: the decomposition of
`tokText s0 pre ++ mid ++ tokText s2 post` obtained by absorbing `mid` and
`s2` into the segment that precedes `post`. -/
def absorb : List Char → List ((List Char × Value) × List Char) → List Char →
    List Char → List ((List Char × Value) × List Char) →
    List Char × List ((List Char × Value) × List Char)
  | s0, [], mid, s2, post => (s0 ++ mid ++ s2, post)
  | s0, a :: pre, mid, s2, post =>
    (s0, (a.1, (absorb a.2 pre mid s2 post).1) :: (absorb a.2 pre mid s2 post).2)

/-! ### Lemmas about the string primitives -/

theorem starts_nil (s : List Char) : Starts [] s := ⟨s, rfl⟩

theorem starts_of_eq {pat s : List Char} (h : pat = s) : Starts pat s :=
  ⟨[], by simp [h]⟩

theorem Starts.length_le {pat s : List Char} (h : Starts pat s) : pat.length ≤ s.length := by
  obtain ⟨t, rfl⟩ := h
  simp

theorem starts_ne_nil {pat s : List Char} (hp : pat ≠ []) (h : Starts pat s) : s ≠ [] := by
  obtain ⟨t, rfl⟩ := h
  simp [hp]

theorem starts_append_right {pat s : List Char} (t : List Char) (h : Starts pat s) :
    Starts pat (s ++ t) := by
  obtain ⟨u, rfl⟩ := h
  exact ⟨u ++ t, by simp⟩

theorem starts_take {pat s : List Char} (h : Starts pat s) : s.take pat.length = pat := by
  obtain ⟨t, rfl⟩ := h
  simp

theorem starts_of_take {pat s : List Char} (h : s.take pat.length = pat) : Starts pat s := by
  have h2 := List.take_append_drop pat.length s
  rw [h] at h2
  exact ⟨s.drop pat.length, h2⟩

theorem occursAt_zero {pat s : List Char} : OccursAt pat s 0 ↔ Starts pat s := by
  simp [OccursAt]

theorem occursAt_succ_cons {pat : List Char} {c : Char} {cs : List Char} {i : Nat} :
    OccursAt pat (c :: cs) (i + 1) ↔ OccursAt pat cs i := by
  simp [OccursAt]

theorem occursAt_drop {pat s : List Char} {n k : Nat} :
    OccursAt pat (s.drop n) k ↔ OccursAt pat s (n + k) := by
  unfold OccursAt
  rw [List.drop_drop]

theorem occursAt_bound {pat s : List Char} {i : Nat} (hp : pat ≠ [])
    (h : OccursAt pat s i) : i + pat.length ≤ s.length := by
  have h1 := h.length_le
  have h2 : 0 < pat.length := List.length_pos.mpr hp
  simp only [List.length_drop] at h1
  omega

theorem findSub_some {s pat : List Char} {i : Nat} (h : findSub s pat = some i) :
    OccursAt pat s i ∧ ∀ j, j < i → ¬ OccursAt pat s j := by
  induction s generalizing i with
  | nil =>
    unfold findSub at h
    split at h
    · rename_i hst
      injection h with h1
      exact ⟨by simpa [OccursAt, ← h1] using hst, by omega⟩
    · simp at h
  | cons c cs ih =>
    unfold findSub at h
    split at h
    · rename_i hst
      injection h with h1
      exact ⟨by simpa [OccursAt, ← h1] using hst, by omega⟩
    · rename_i hst
      simp only [Option.map_eq_some'] at h
      obtain ⟨j, hj, rfl⟩ := h
      obtain ⟨h1, h2⟩ := ih hj
      refine ⟨occursAt_succ_cons.mpr h1, ?_⟩
      intro k hk
      cases k with
      | zero => simpa [occursAt_zero] using hst
      | succ k =>
        rw [occursAt_succ_cons]
        exact h2 k (by omega)

theorem findSub_of_occursAt {s pat : List Char} {i : Nat} (h : OccursAt pat s i) :
    ∃ j, j ≤ i ∧ findSub s pat = some j := by
  induction s generalizing i with
  | nil =>
    have hst : Starts pat [] := by
      have := h
      unfold OccursAt at this
      simpa [List.drop_nil] using this
    exact ⟨0, by omega, by unfold findSub; simp [hst]⟩
  | cons c cs ih =>
    by_cases hst : Starts pat (c :: cs)
    · exact ⟨0, by omega, by unfold findSub; simp [hst]⟩
    · cases i with
      | zero => exact absurd (occursAt_zero.mp h) hst
      | succ i =>
        obtain ⟨j, hj, hfind⟩ := ih (occursAt_succ_cons.mp h)
        exact ⟨j + 1, by omega, by unfold findSub; simp [hst, hfind]⟩

theorem containsSub_iff {pat s : List Char} :
    containsSub pat s = true ↔ ∃ i, OccursAt pat s i := by
  unfold containsSub
  constructor
  · intro h
    obtain ⟨i, hi⟩ := Option.isSome_iff_exists.mp h
    exact ⟨i, (findSub_some hi).1⟩
  · rintro ⟨i, hi⟩
    obtain ⟨j, _, hj⟩ := findSub_of_occursAt hi
    simp [hj]

theorem containsSub_eq_false {pat s : List Char} :
    containsSub pat s = false ↔ ∀ i, ¬ OccursAt pat s i := by
  rw [← Bool.not_eq_true, containsSub_iff]
  push_neg
  rfl

theorem mem_of_containsSub {pat s : List Char} {c : Char}
    (h : containsSub pat s = true) (hc : c ∈ pat) : c ∈ s := by
  obtain ⟨i, t, ht⟩ := containsSub_iff.mp h
  have : c ∈ s.drop i := by rw [← ht]; exact List.mem_append_left _ hc
  exact List.drop_subset _ _ this

theorem countOcc_nil (pat : List Char) :
    countOcc pat [] = if Starts pat [] then 1 else 0 := rfl

theorem countOcc_cons (pat : List Char) (c : Char) (cs : List Char) :
    countOcc pat (c :: cs) = (if Starts pat (c :: cs) then 1 else 0) + countOcc pat cs := rfl

theorem countOcc_pos {pat s : List Char} {i : Nat} (h : OccursAt pat s i) :
    0 < countOcc pat s := by
  induction s generalizing i with
  | nil =>
    have hst : Starts pat [] := by simpa [OccursAt] using h
    rw [countOcc_nil]
    simp [hst]
  | cons c cs ih =>
    rw [countOcc_cons]
    cases i with
    | zero =>
      have hst := occursAt_zero.mp h
      simp [hst]
    | succ i =>
      have := ih (occursAt_succ_cons.mp h)
      omega

theorem countOcc_unique {pat s : List Char} {i j : Nat} (hp : pat ≠ [])
    (hc : countOcc pat s ≤ 1) (hi : OccursAt pat s i) (hj : OccursAt pat s j) : i = j := by
  induction s generalizing i j with
  | nil =>
    obtain ⟨t, ht⟩ : Starts pat [] := by simpa [OccursAt] using hi
    have hl := congrArg List.length ht
    have hpos := List.length_pos.mpr hp
    simp only [List.length_append, List.length_nil] at hl
    omega
  | cons c cs ih =>
    rw [countOcc_cons] at hc
    cases i with
    | zero =>
      cases j with
      | zero => rfl
      | succ j =>
        have hst := occursAt_zero.mp hi
        have hpos := countOcc_pos (occursAt_succ_cons.mp hj)
        simp [hst] at hc
        omega
    | succ i =>
      cases j with
      | zero =>
        have hst := occursAt_zero.mp hj
        have hpos := countOcc_pos (occursAt_succ_cons.mp hi)
        simp [hst] at hc
        omega
      | succ j =>
        have hc2 : countOcc pat cs ≤ 1 := by
          split at hc <;> omega
        rw [ih hc2 (occursAt_succ_cons.mp hi) (occursAt_succ_cons.mp hj)]

theorem replaceSubF_congr : ∀ (f1 : Nat) (pat rep s : List Char) (f2 : Nat),
    s.length ≤ f1 → s.length ≤ f2 →
    replaceSubF f1 pat rep s = replaceSubF f2 pat rep s := by
  intro f1
  induction f1 with
  | zero =>
    intro pat rep s f2 h1 h2
    have hs : s = [] := List.length_eq_zero.mp (by omega)
    subst hs
    cases f2 <;> rfl
  | succ f1 ih =>
    intro pat rep s f2 h1 h2
    cases s with
    | nil => cases f2 <;> rfl
    | cons c cs =>
      cases f2 with
      | zero => simp at h2
      | succ f2 =>
        simp only [replaceSubF]
        simp only [List.length_cons] at h1 h2
        by_cases h : pat ≠ [] ∧ Starts pat (c :: cs)
        · rw [if_pos h, if_pos h]
          have hlen : ((c :: cs).drop pat.length).length ≤ cs.length := by
            obtain ⟨hne, t, ht⟩ := h
            have hl := congrArg List.length ht
            have hpos := List.length_pos.mpr hne
            simp only [List.length_append, List.length_cons] at hl
            simp only [List.length_drop, List.length_cons]
            omega
          rw [ih pat rep _ f2 (by omega) (by omega)]
        · rw [if_neg h, if_neg h]
          rw [ih pat rep cs f2 (by omega) (by omega)]

theorem replaceSub_nil (pat rep : List Char) : replaceSub pat rep [] = [] := rfl

theorem replaceSub_cons (pat rep : List Char) (c : Char) (cs : List Char) :
    replaceSub pat rep (c :: cs) =
      if pat ≠ [] ∧ Starts pat (c :: cs) then
        rep ++ replaceSub pat rep ((c :: cs).drop pat.length)
      else c :: replaceSub pat rep cs := by
  unfold replaceSub
  rw [List.length_cons]
  simp only [replaceSubF]
  by_cases h : pat ≠ [] ∧ Starts pat (c :: cs)
  · rw [if_pos h, if_pos h]
    have hlen : ((c :: cs).drop pat.length).length ≤ cs.length := by
      obtain ⟨hne, t, ht⟩ := h
      have hl := congrArg List.length ht
      have hpos := List.length_pos.mpr hne
      simp only [List.length_append, List.length_cons] at hl
      simp only [List.length_drop, List.length_cons]
      omega
    rw [replaceSubF_congr cs.length pat rep _ ((c :: cs).drop pat.length).length hlen (Nat.le_refl _)]
  · rw [if_neg h, if_neg h]

theorem replaceSub_of_no_occ {pat s : List Char} (rep : List Char) (hp : pat ≠ [])
    (h : ∀ i, ¬ OccursAt pat s i) : replaceSub pat rep s = s := by
  induction s with
  | nil => exact replaceSub_nil pat rep
  | cons c cs ih =>
    have h0 : ¬ Starts pat (c :: cs) := fun hst => h 0 (occursAt_zero.mpr hst)
    rw [replaceSub_cons, if_neg (by tauto)]
    rw [ih]
    intro i hi
    exact h (i + 1) (occursAt_succ_cons.mpr hi)

theorem replaceSub_unique {pat s : List Char} (rep : List Char) {i : Nat} (hp : pat ≠ [])
    (hi : OccursAt pat s i) (huniq : ∀ j, OccursAt pat s j → j = i) :
    replaceSub pat rep s = s.take i ++ rep ++ s.drop (i + pat.length) := by
  induction s generalizing i with
  | nil =>
    obtain ⟨t, ht⟩ : Starts pat [] := by simpa [OccursAt] using hi
    have hl := congrArg List.length ht
    have hpos := List.length_pos.mpr hp
    simp only [List.length_append, List.length_nil] at hl
    omega
  | cons c cs ih =>
    cases i with
    | zero =>
      have hst : Starts pat (c :: cs) := occursAt_zero.mp hi
      rw [replaceSub_cons, if_pos ⟨hp, hst⟩]
      have hrest : replaceSub pat rep ((c :: cs).drop pat.length) = (c :: cs).drop pat.length := by
        apply replaceSub_of_no_occ rep hp
        intro k hk
        have := huniq (pat.length + k) (occursAt_drop.mp hk)
        have hpos := List.length_pos.mpr hp
        omega
      rw [hrest]
      simp
    | succ i =>
      have h0 : ¬ Starts pat (c :: cs) := by
        intro hst
        have := huniq 0 (occursAt_zero.mpr hst)
        omega
      rw [replaceSub_cons, if_neg (by tauto)]
      have hcs : replaceSub pat rep cs = cs.take i ++ rep ++ cs.drop (i + pat.length) := by
        apply ih (occursAt_succ_cons.mp hi)
        intro j hj
        have := huniq (j + 1) (occursAt_succ_cons.mpr hj)
        omega
      rw [hcs]
      simp only [List.take_succ_cons, List.cons_append]
      rw [show i + 1 + pat.length = (i + pat.length) + 1 from by omega, List.drop_succ_cons]

/-! ### Lemmas about rendered text -/

theorem renderedText_append (p q : Paragraph) :
    renderedText (p ++ q) = renderedText p ++ renderedText q := by
  induction p with
  | nil => rfl
  | cons r rs ih => simp [renderedText, ih]

theorem renderedText_cons (r : Run) (rs : Paragraph) :
    renderedText (r :: rs) = r.text ++ renderedText rs := rfl

theorem renderedText_decomp {p : Paragraph} {i : Nat} (h : i < p.length) :
    renderedText p =
      renderedText (p.take i) ++ (p.get ⟨i, h⟩).text ++ renderedText (p.drop (i + 1)) := by
  induction p generalizing i with
  | nil => simp at h
  | cons r rs ih =>
    cases i with
    | zero =>
      simp only [List.take_zero, List.drop_one, List.get]
      rw [renderedText_cons]
      simp [renderedText]
    | succ i =>
      have h2 : i < rs.length := by simpa using h
      simp only [List.take_succ_cons, List.drop_succ_cons, List.get_cons_succ]
      rw [renderedText_cons, renderedText_cons, ih h2]
      simp

/-! ### Lemmas about whitespace stripping and the token scanner -/

theorem mem_dropWhile_of_mem {p : Char → Bool} {l : List Char} {c : Char}
    (hm : c ∈ l) (hc : p c = false) : c ∈ l.dropWhile p := by
  induction l with
  | nil => simp at hm
  | cons a l ih =>
    rw [List.dropWhile_cons]
    split
    · rename_i hpa
      rcases List.mem_cons.mp hm with rfl | hm2
      · rw [hpa] at hc; simp at hc
      · exact ih hm2
    · exact hm

theorem pyStrip_ne_nil_of_mem {s : List Char} {c : Char} (hm : c ∈ s)
    (hc : pyIsSpace c = false) : pyStrip s ≠ [] := by
  unfold pyStrip
  intro hcon
  have h1 : c ∈ s.dropWhile pyIsSpace := mem_dropWhile_of_mem hm hc
  have h2 : c ∈ (s.dropWhile pyIsSpace).reverse := List.mem_reverse.mpr h1
  have h3 : c ∈ (s.dropWhile pyIsSpace).reverse.dropWhile pyIsSpace :=
    mem_dropWhile_of_mem h2 hc
  rw [← List.mem_reverse] at h3
  rw [hcon] at h3
  simp at h3

theorem pyStrip_all_space {s : List Char} (h : pyStrip s = []) :
    ∀ c ∈ s, pyIsSpace c = true := by
  intro c hm
  by_contra hc
  exact pyStrip_ne_nil_of_mem hm (by simpa using hc) h

theorem findallF_brace : ∀ (fuel : Nat) (s : List Char),
    findallF fuel s ≠ [] → '{' ∈ s := by
  intro fuel
  induction fuel with
  | zero =>
    intro s h
    simp [findallF] at h
  | succ fuel ih =>
    intro s h
    cases s with
    | nil => simp [findallF] at h
    | cons c cs =>
      by_cases hc : c = '{'
      · subst hc
        exact List.mem_cons_self _ _
      · simp only [findallF, if_neg hc] at h
        exact List.mem_cons_of_mem _ (ih cs h)

theorem findall_brace {s : List Char} (h : findall s ≠ []) : '{' ∈ s :=
  findallF_brace s.length s h

/-! ### Lemmas about the email guard -/

theorem space_not_mem_replaceSpaces (s : List Char) : ' ' ∉ replaceSpaces s := by
  intro h
  obtain ⟨c, hc, heq⟩ := List.mem_map.mp h
  by_cases h0 : c = ' '
  · rw [if_pos h0] at heq
    exact absurd heq (by decide)
  · rw [if_neg h0] at heq
    exact h0 heq

theorem mem_addAtMarkers {s : List Char} {c : Char} (h : c ∈ addAtMarkers s) :
    c ∈ s ∨ c = '⁠' := by
  unfold addAtMarkers at h
  obtain ⟨d, hd, hc⟩ := List.mem_flatMap.mp h
  by_cases h0 : d = '@' <;> simp [h0] at hc
  · rcases hc with rfl | rfl
    · exact Or.inl (h0 ▸ hd)
    · exact Or.inr rfl
  · exact Or.inl (hc ▸ hd)

theorem addAt_marker_after : ∀ (s : List Char) (i : Nat),
    (addAtMarkers s).get? i = some '@' → (addAtMarkers s).get? (i + 1) = some '⁠' := by
  intro s
  induction s with
  | nil => intro i h; simp [addAtMarkers] at h
  | cons c cs ih =>
    intro i h
    by_cases h0 : c = '@'
    · have hs : addAtMarkers (c :: cs) = '@' :: '⁠' :: addAtMarkers cs := by
        simp [addAtMarkers, h0]
      rw [hs] at h ⊢
      match i with
      | 0 => rfl
      | 1 =>
        simp only [List.get?] at h
        exact absurd (Option.some.inj h) (by decide)
      | n + 2 =>
        simp only [List.get?] at h ⊢
        exact ih n h
    · have hs : addAtMarkers (c :: cs) = c :: addAtMarkers cs := by
        simp [addAtMarkers, h0]
      rw [hs] at h ⊢
      match i with
      | 0 =>
        simp only [List.get?] at h
        exact absurd (Option.some.inj h) h0
      | n + 1 =>
        simp only [List.get?] at h ⊢
        exact ih n h

/-- **C6.** For every placeholder replacement on which the email guard fires
(the placeholder name contains `"email"` case-insensitively, or the non-empty
transformed value contains both `'@'` and `'.'` — the condition
`isEmailField`), the value actually inserted is exactly the transformed value
with every space turned into the non-breaking space U+00A0 and a zero-width
no-break marker U+2060 written after every `'@'`: hence it contains no plain
space, and every `'@'` in it is immediately followed by U+2060. -/
theorem c6_email_guard (placeholder : List Char) (value : Value)
    (h : isEmailField placeholder (sentinelValue value) = true) :
    replacementFor placeholder value =
        addAtMarkers (replaceSpaces (sentinelValue value)) ∧
      ' ' ∉ replacementFor placeholder value ∧
      ∀ i, (replacementFor placeholder value).get? i = some '@' →
        (replacementFor placeholder value).get? (i + 1) = some '⁠' := by
  have heq : replacementFor placeholder value =
      addAtMarkers (replaceSpaces (sentinelValue value)) := by
    unfold replacementFor
    by_cases hrv : sentinelValue value = []
    · simp [h, hrv, addAtMarkers, replaceSpaces]
    · simp [h, hrv]
  refine ⟨heq, ?_, ?_⟩
  · rw [heq]
    intro hmem
    rcases mem_addAtMarkers hmem with h1 | h1
    · exact space_not_mem_replaceSpaces _ h1
    · exact absurd h1 (by decide)
  · intro i
    rw [heq]
    exact addAt_marker_after _ i

/-- Witness for `c6_email_guard`: the spec's own scenario, placeholder
`{Email}` with value `"john doe@example.com"`. -/
theorem c6_email_guard_witness :
    isEmailField "Email".toList (sentinelValue (some "john doe@example.com".toList)) = true ∧
      replacementFor "Email".toList (some "john doe@example.com".toList) =
        addAtMarkers (replaceSpaces (sentinelValue (some "john doe@example.com".toList))) :=
  ⟨by decide, (c6_email_guard "Email".toList (some "john doe@example.com".toList) (by decide)).1⟩

/-- **C7 counterexample.** The value `" nan "` is not absent, does not
case-insensitively equal `"nan"` (it carries spaces), and is not
whitespace-only, yet its inserted form is the literal text `"nan"`: in a
paragraph that is exactly the placeholder, the rendered output text is
`"nan"`, so the literal text `"nan"` does appear at a placeholder's former
location. -/
theorem c7_counterexample :
    renderedText (replace_placeholder_in_paragraph
        [{ text := "{X}".toList }] "X".toList (some " nan ".toList)).1 = "nan".toList ∧
      "nan".toList ≠ [] := by
  constructor
  · rfl
  · decide

/-- **C7 (amended).** A value that is `None`, or whose (untrimmed) string
form case-insensitively equals `"nan"`, `"none"` or `""`, or that is
whitespace-only, is always inserted as the empty string.  (The original
claim's final clause is weakened: a value whose trimmed — but not raw — form
equals `"nan"`, such as `" nan "`, is inserted as the literal trimmed text,
per the counterexample.) -/
theorem c7_empty_value (placeholder : List Char) (value : Value)
    (h : value = none ∨ ∃ s, value = some s ∧
      (pyLower s = "nan".toList ∨ pyLower s = "none".toList ∨ pyLower s = [] ∨
        pyStrip s = [])) :
    replacementFor placeholder value = [] := by
  have hrv : sentinelValue value = [] := by
    rcases h with rfl | ⟨s, rfl, hs⟩
    · rfl
    · show (if pyLower s = "nan".toList ∨ pyLower s = "none".toList ∨ pyLower s = [] then []
          else pyStrip s) = []
      rcases hs with hs | hs | hs | hs
      · rw [if_pos (Or.inl hs)]
      · rw [if_pos (Or.inr (Or.inl hs))]
      · rw [if_pos (Or.inr (Or.inr hs))]
      · by_cases hsen : pyLower s = "nan".toList ∨ pyLower s = "none".toList ∨ pyLower s = []
        · rw [if_pos hsen]
        · rw [if_neg hsen]
          exact hs
  unfold replacementFor
  simp [hrv, addAtMarkers, replaceSpaces]

/-- Witness for `c7_empty_value`: the whitespace-only value `"  "`. -/
theorem c7_empty_value_witness :
    (some "  ".toList = none ∨ ∃ s, some "  ".toList = some s ∧
      (pyLower s = "nan".toList ∨ pyLower s = "none".toList ∨ pyLower s = [] ∨
        pyStrip s = [])) ∧
      replacementFor "X".toList (some "  ".toList) = [] :=
  ⟨Or.inr ⟨"  ".toList, rfl, Or.inr (Or.inr (Or.inr (by decide)))⟩,
    c7_empty_value "X".toList (some "  ".toList)
      (Or.inr ⟨"  ".toList, rfl, Or.inr (Or.inr (Or.inr (by decide)))⟩)⟩

/-! ### Lemmas about the normalized key lookup -/

theorem alookup_append {β : Type} (l1 l2 : List (List Char × β)) (n : List Char) :
    alookup (l1 ++ l2) n =
      match alookup l1 n with
      | some v => some v
      | none => alookup l2 n := by
  induction l1 with
  | nil => simp [alookup]
  | cons kv rest ih =>
    by_cases h : kv.1 = n
    · simp [alookup, h]
    · simp only [List.cons_append, alookup, if_neg h]
      exact ih

theorem alookup_assocSet_found {β : Type} {l : List (List Char × β)} {k : List Char}
    {v0 : β} (w : β) (h : alookup l k = some v0) :
    alookup (assocSet l k w) k = some w := by
  induction l with
  | nil => simp [alookup] at h
  | cons kv rest ih =>
    by_cases hk : kv.1 = k
    · simp [assocSet, hk, alookup]
    · simp only [alookup, if_neg hk] at h
      simp only [assocSet, if_neg hk, alookup, if_neg hk]
      exact ih h

theorem alookup_assocSet_ne {β : Type} (l : List (List Char × β)) {k n : List Char}
    (w : β) (h : k ≠ n) : alookup (assocSet l k w) n = alookup l n := by
  induction l with
  | nil => simp [assocSet, alookup]
  | cons kv rest ih =>
    by_cases hk : kv.1 = k
    · have hn : ¬ kv.1 = n := by rw [hk]; exact h
      simp [assocSet, hk, alookup, if_neg, h, hn]
    · simp only [assocSet, if_neg hk, alookup]
      by_cases hn : kv.1 = n
      · simp [hn]
      · simp only [if_neg hn]
        exact ih

theorem buildNormalized_go (n : List Char) : ∀ (d : Data)
    (acc : List (List Char × (List Char × Value))), (d.map Prod.fst).Nodup →
    alookup (d.foldl normStep acc) n =
      match d.find? (fun kv => decide (kv.1 = n ∧ normalize_key kv.1 = n)) with
      | some kv => some kv
      | none =>
        match alookup acc n with
        | some z => some z
        | none => d.find? (fun kv => decide (normalize_key kv.1 = n)) := by
  intro d
  induction d with
  | nil =>
    intro acc hnd
    simp only [List.foldl_nil, List.find?_nil]
    cases alookup acc n <;> rfl
  | cons kv rest ih =>
    intro acc hnd
    rw [List.map_cons] at hnd
    obtain ⟨hk, hnd2⟩ := List.nodup_cons.mp hnd
    rw [List.foldl_cons, ih (normStep acc kv) hnd2]
    by_cases hself : kv.1 = n ∧ normalize_key kv.1 = n
    · -- the head is the self-normalized entry of class n
      have hrest : rest.find? (fun kv => decide (kv.1 = n ∧ normalize_key kv.1 = n)) = none := by
        rw [List.find?_eq_none]
        rintro e he hc
        obtain ⟨hc1, hc2⟩ := of_decide_eq_true hc
        have hmem : e.1 ∈ rest.map Prod.fst := List.mem_map_of_mem Prod.fst he
        rw [hc1, ← hself.1] at hmem
        exact hk hmem
      have hacc : alookup (normStep acc kv) n = some kv := by
        unfold normStep
        rw [hself.2]
        cases hl : alookup acc n with
        | none =>
          simp only [hl]
          rw [alookup_append, hl]
          simp [alookup]
        | some z =>
          simp only [hl]
          rw [if_pos (hself.2 ▸ hself.1)]
          exact alookup_assocSet_found kv hl
      have hfind : (kv :: rest).find? (fun kv => decide (kv.1 = n ∧ normalize_key kv.1 = n)) =
          some kv := by
        rw [List.find?_cons_of_pos]
        exact decide_eq_true hself
      rw [hrest, hacc, hfind]
    · have hfind : (kv :: rest).find? (fun kv => decide (kv.1 = n ∧ normalize_key kv.1 = n)) =
          rest.find? (fun kv => decide (kv.1 = n ∧ normalize_key kv.1 = n)) := by
        rw [List.find?_cons_of_neg]
        simp [hself]
      rw [hfind]
      cases hrf : rest.find? (fun kv => decide (kv.1 = n ∧ normalize_key kv.1 = n)) with
      | some kv2 => rfl
      | none =>
        by_cases hclass : normalize_key kv.1 = n
        · -- head is in class n but is not self-normalized
          have hkv1 : kv.1 ≠ n := fun hc => hself ⟨hc, hclass⟩
          have hccons : (kv :: rest).find? (fun kv => decide (normalize_key kv.1 = n)) =
              some kv := by
            rw [List.find?_cons_of_pos]
            exact decide_eq_true hclass
          rw [hccons]
          unfold normStep
          rw [hclass]
          cases hl : alookup acc n with
          | none =>
            simp only [hl]
            rw [alookup_append, hl]
            simp [alookup]
          | some z =>
            simp only [hl]
            rw [if_neg hkv1]
            simp only [hl]
        · -- head belongs to a different class
          have hccons : (kv :: rest).find? (fun kv => decide (normalize_key kv.1 = n)) =
              rest.find? (fun kv => decide (normalize_key kv.1 = n)) := by
            rw [List.find?_cons_of_neg]
            simp [hclass]
          rw [hccons]
          have hacc : alookup (normStep acc kv) n = alookup acc n := by
            unfold normStep
            cases hl : alookup acc (normalize_key kv.1) with
            | none =>
              simp only [hl]
              rw [alookup_append]
              cases hl2 : alookup acc n with
              | some z => rfl
              | none => simp [alookup, hclass]
            | some z =>
              simp only [hl]
              by_cases hkn : kv.1 = normalize_key kv.1
              · rw [if_pos hkn]
                exact alookup_assocSet_ne acc _ hclass
              · rw [if_neg hkn]
          rw [hacc]

/-- **C8 counterexample.** With the record `{"NAME": "1", "Name": "2"}` (two
distinct keys normalizing to `"name"`) and placeholder `{Name}`, the
normalized lookup of `_find_placeholder_matches` resolves to the first
encountered key `"NAME"` with value `"1"`, even though the key `"Name"`
exact-case-matches the placeholder and holds value `"2"`. -/
theorem c8_counterexample :
    find_placeholder_matches "{Name}".toList
        [("NAME".toList, some "1".toList), ("Name".toList, some "2".toList)] =
      [("Name".toList, ("NAME".toList, some "1".toList))] ∧
    alookup [("NAME".toList, some "1".toList), ("Name".toList, some "2".toList)]
        "Name".toList = some (some "2".toList) := by
  exact ⟨rfl, rfl⟩

/-- **C8 (amended).** For records with pairwise-distinct keys, the normalized
lookup resolves a placeholder to the record entry whose key is literally
equal to the normalized placeholder name when the record contains one, and
otherwise to the first encountered record entry whose key has the same
normalization.  (A key that merely exact-case-matches the placeholder has no
preference, per the counterexample; placeholders with an exact-case key are
instead consumed by the exact pass of `fill_placeholders` before the
normalized lookup runs.) -/
theorem c8_normalized_lookup (d : Data) (ph : List Char)
    (h : (d.map Prod.fst).Nodup) :
    alookup (buildNormalizedData d) (normalize_key ph) =
      resolveSpec d (normalize_key ph) := by
  unfold buildNormalizedData resolveSpec
  rw [buildNormalized_go (normalize_key ph) d [] h]
  cases d.find? (fun kv => decide (kv.1 = normalize_key ph ∧
      normalize_key kv.1 = normalize_key ph)) with
  | some kv => rfl
  | none => rfl

/-- Witness for `c8_normalized_lookup` at the counterexample record. -/
theorem c8_normalized_lookup_witness :
    (([("NAME".toList, some "1".toList), ("Name".toList, some "2".toList)] : Data).map
        Prod.fst).Nodup ∧
    alookup (buildNormalizedData
          [("NAME".toList, some "1".toList), ("Name".toList, some "2".toList)])
        (normalize_key "Name".toList) =
      resolveSpec [("NAME".toList, some "1".toList), ("Name".toList, some "2".toList)]
        (normalize_key "Name".toList) :=
  ⟨by decide, c8_normalized_lookup _ _ (by decide)⟩

/-! ### Run provenance: every run the engine writes has its highlight cleared -/

/-- Every run of `q` either occurs untouched in `p` or carries no
highlight. -/
def RunProv (p q : Paragraph) : Prop := ∀ r ∈ q, r ∈ p ∨ r.highlight = none

theorem runProv_refl (p : Paragraph) : RunProv p p := fun r hr => Or.inl hr

theorem runProv_trans {p q s : Paragraph} (h1 : RunProv p q) (h2 : RunProv q s) :
    RunProv p s := by
  intro r hr
  rcases h2 r hr with h | h
  · exact h1 r h
  · exact Or.inr h

theorem mem_setRun {rs : List Run} {i : Nat} {f : Run → Run} {r : Run}
    (h : r ∈ setRun rs i f) : r ∈ rs ∨ ∃ r0, r0 ∈ rs ∧ r = f r0 := by
  induction rs generalizing i with
  | nil => simp [setRun] at h
  | cons r1 rest ih =>
    cases i with
    | zero =>
      rcases List.mem_cons.mp h with rfl | h2
      · exact Or.inr ⟨r1, List.mem_cons_self _ _, rfl⟩
      · exact Or.inl (List.mem_cons_of_mem _ h2)
    | succ n =>
      rcases List.mem_cons.mp h with rfl | h2
      · exact Or.inl (List.mem_cons_self _ _)
      · rcases ih h2 with h3 | ⟨r0, hr0, rfl⟩
        · exact Or.inl (List.mem_cons_of_mem _ h3)
        · exact Or.inr ⟨r0, List.mem_cons_of_mem _ hr0, rfl⟩

theorem mem_stripHighlightGo {rs : List Run} {i a b : Nat} {r : Run}
    (h : r ∈ stripHighlightGo rs i a b) :
    r ∈ rs ∨ ∃ r0, r0 ∈ rs ∧ r = removeHighlighting r0 := by
  induction rs generalizing i with
  | nil => simp [stripHighlightGo] at h
  | cons r1 rest ih =>
    rcases List.mem_cons.mp h with h2 | h2
    · by_cases hc : a ≤ i ∧ i ≤ b
      · rw [if_pos hc] at h2
        exact Or.inr ⟨r1, List.mem_cons_self _ _, h2⟩
      · rw [if_neg hc] at h2
        exact Or.inl (h2 ▸ List.mem_cons_self _ _)
    · rcases ih h2 with h3 | ⟨r0, hr0, rfl⟩
      · exact Or.inl (List.mem_cons_of_mem _ h3)
      · exact Or.inr ⟨r0, List.mem_cons_of_mem _ hr0, rfl⟩

theorem runProv_strip (p : Paragraph) (si ei : Nat) :
    RunProv p (remove_highlighting_from_all_runs p si ei) := by
  intro r hr
  rcases mem_stripHighlightGo hr with h | ⟨r0, _, rfl⟩
  · exact Or.inl h
  · exact Or.inr rfl

theorem runProv_setRun {p q : Paragraph} (h : RunProv p q) (i : Nat) {f : Run → Run}
    (hf : ∀ r0, (f r0).highlight = none) : RunProv p (setRun q i f) := by
  intro r hr
  rcases mem_setRun hr with h2 | ⟨r0, hr0, rfl⟩
  · exact h r h2
  · exact Or.inr (hf r0)

theorem runProv_spliceStart {p q : Paragraph} (h : RunProv p q) (si : Nat)
    (newText : List Char) : RunProv p (spliceStart q si newText) := by
  unfold spliceStart
  split
  · exact runProv_setRun h si (fun r0 => rfl)
  · exact h

theorem runProv_removeMiddle {p q : Paragraph} (h : RunProv p q) (si ei : Nat) :
    RunProv p (removeMiddle q si ei) := by
  intro r hr
  rcases List.mem_append.mp hr with h2 | h2
  · exact h r (List.take_subset _ _ h2)
  · exact h r (List.drop_subset _ _ h2)

theorem mkSuffixRun_highlight (snap : Option Run) (ea : List Char) :
    (mkSuffixRun snap ea).highlight = none := by
  cases snap <;> rfl

theorem multiSplice_prov (p : Paragraph) (rep : List Char) (phS phE si ei : Nat) :
    RunProv p (multiSplice p rep phS phE si ei).1 := by
  unfold multiSplice
  have hp3 : RunProv p (removeMiddle
      (spliceStart (remove_highlighting_from_all_runs p si ei) si
        ((offsetsGo p 0 0 si ei phS phE [] []).1 ++ rep)) si ei) :=
    runProv_removeMiddle (runProv_spliceStart (runProv_strip p si ei) _ _) _ _
  dsimp only
  split
  · split
    · exact runProv_setRun hp3 _ (fun r0 => rfl)
    · split
      · intro r hr
        rcases List.mem_append.mp hr with h2 | h2
        · exact hp3 r h2
        · rw [List.mem_singleton.mp h2]
          exact Or.inr (mkSuffixRun_highlight _ _)
      · exact hp3
  · exact hp3

theorem replacePH_prov (p : Paragraph) (ph : List Char) (v : Value) :
    RunProv p (replace_placeholder_in_paragraph p ph v).1 := by
  unfold replace_placeholder_in_paragraph
  dsimp only
  split
  · exact runProv_refl p
  · split
    · intro r hr
      rcases mem_setRun hr with h | ⟨r0, _, rfl⟩
      · exact Or.inl h
      · exact Or.inr rfl
    · split
      · exact runProv_refl p
      · split
        · split
          · split
            · intro r hr
              rcases mem_setRun hr with h | ⟨r0, _, rfl⟩
              · exact Or.inl h
              · exact Or.inr rfl
            · exact runProv_refl p
          · exact multiSplice_prov p _ _ _ _ _
        · exact runProv_refl p

theorem exactPass_prov (d : Data) (p : Paragraph) : RunProv p (exactPass d p) := by
  unfold exactPass
  induction d generalizing p with
  | nil => exact runProv_refl p
  | cons kv rest ih =>
    rw [List.foldl_cons]
    exact runProv_trans (replacePH_prov p kv.1 kv.2) (ih _)

theorem normalizedFold_prov (trainee : Bool)
    (ms : List (List Char × (List Char × Value))) :
    ∀ st : Paragraph × List Char × Bool,
    RunProv st.1 (ms.foldl (normalizedStep trainee) st).1 := by
  induction ms with
  | nil => intro st; exact runProv_refl st.1
  | cons m rest ih =>
    intro st
    rw [List.foldl_cons]
    refine runProv_trans ?_ (ih (normalizedStep trainee st m))
    unfold normalizedStep
    split
    · exact replacePH_prov st.1 m.1 m.2.2
    · exact runProv_refl st.1

theorem processParagraph_prov (trainee : Bool) (d : Data) (p : Paragraph) :
    RunProv p (processParagraph trainee d p).1 := by
  unfold processParagraph
  exact runProv_trans (exactPass_prov d p)
    (normalizedFold_prov trainee _ (exactPass d p, renderedText (exactPass d p), false))

theorem mem_pruneProcessed {xs : List (Paragraph × Bool)} {q : Paragraph}
    (h : q ∈ pruneProcessed xs) : ∃ x, x ∈ xs ∧ q = x.1 := by
  unfold pruneProcessed at h
  obtain ⟨x, hx, rfl⟩ := List.mem_map.mp h
  exact ⟨x, List.mem_of_mem_filter hx, rfl⟩

theorem fillCell_prov {trainee : Bool} {d : Data} {cell : List Paragraph} {r : Run}
    (h : r ∈ (fillCell trainee d cell).flatten) : r ∈ cell.flatten ∨ r.highlight = none := by
  obtain ⟨q, hq, hr⟩ := List.mem_flatten.mp h
  obtain ⟨x, hx, rfl⟩ := mem_pruneProcessed hq
  obtain ⟨p, hp, rfl⟩ := List.mem_map.mp hx
  rcases processParagraph_prov trainee d p r hr with h2 | h2
  · exact Or.inl (List.mem_flatten.mpr ⟨p, hp, h2⟩)
  · exact Or.inr h2

/-- **C3 counterexample.** A template whose single run carries a highlight
and whose text mentions no placeholder: after `fill_placeholders` with an
empty record the run still carries its highlight — there is no final
document-wide highlight sweep (`_remove_all_highlighting_from_paragraph` is
never invoked by `fill_placeholders`). -/
theorem c3_counterexample :
    ((allRunsDoc (DocX.mk [[{ text := "hello".toList, highlight := some 7 }]] [])).any
        (fun r => r.highlight.isSome) = true) ∧
    ((allRunsDoc (fill_placeholders "template.docx".toList
          (DocX.mk [[{ text := "hello".toList, highlight := some 7 }]] []) [])).any
        (fun r => r.highlight.isSome) = true) := by
  exact ⟨rfl, rfl⟩

/-- **C3 (amended).** After `fill_placeholders`, every run of the output
document either occurs identically (text, formatting and highlight) in the
input document, or carries no highlight.  Equivalently: every run the engine
touched has its highlight cleared, but runs that did not participate in any
substitution keep theirs — the original claim fails for those, since the
final sweep the spec describes does not exist in `fill_placeholders`. -/
theorem c3_no_highlight (trainee : Bool) (d : Data) (doc : DocX) (r : Run)
    (h : r ∈ allRunsDoc (fillDocument trainee d doc)) :
    r ∈ allRunsDoc doc ∨ r.highlight = none := by
  unfold allRunsDoc at h ⊢
  rcases List.mem_append.mp h with h1 | h1
  · obtain ⟨q, hq, hr⟩ := List.mem_flatten.mp h1
    obtain ⟨x, hx, rfl⟩ := mem_pruneProcessed hq
    obtain ⟨p, hp, rfl⟩ := List.mem_map.mp hx
    rcases processParagraph_prov trainee d p r hr with h2 | h2
    · exact Or.inl (List.mem_append_left _ (List.mem_flatten.mpr ⟨p, hp, h2⟩))
    · exact Or.inr h2
  · obtain ⟨tflat, htf, hr1⟩ := List.mem_flatten.mp h1
    obtain ⟨t1, ht1, rfl⟩ := List.mem_map.mp htf
    obtain ⟨t, ht, rfl⟩ := List.mem_map.mp ht1
    obtain ⟨rflat, hrf, hr2⟩ := List.mem_flatten.mp hr1
    obtain ⟨row1, hrow1, rfl⟩ := List.mem_map.mp hrf
    obtain ⟨row, hrow, rfl⟩ := List.mem_map.mp hrow1
    obtain ⟨cflat, hcf, hr3⟩ := List.mem_flatten.mp hr2
    obtain ⟨cell1, hcell1, rfl⟩ := List.mem_map.mp hcf
    obtain ⟨cell, hcell, rfl⟩ := List.mem_map.mp hcell1
    rcases fillCell_prov hr3 with h2 | h2
    · refine Or.inl (List.mem_append_right _ ?_)
      refine List.mem_flatten.mpr ⟨_, List.mem_map_of_mem _ ht, ?_⟩
      refine List.mem_flatten.mpr ⟨_, List.mem_map_of_mem _ hrow, ?_⟩
      exact List.mem_flatten.mpr ⟨_, List.mem_map_of_mem _ hcell, h2⟩
    · exact Or.inr h2

/-- Witness for `c3_no_highlight`: the run `"Y"` produced by substituting
`{X}` in a highlighted run is in the output and carries no highlight. -/
theorem c3_no_highlight_witness :
    ({ text := "Y".toList, highlight := none } : Run) ∈
        allRunsDoc (fillDocument false [("X".toList, some "Y".toList)]
          (DocX.mk [[{ text := "{X}".toList, highlight := some 7 }]] [])) ∧
    (({ text := "Y".toList, highlight := none } : Run) ∈
        allRunsDoc (DocX.mk [[{ text := "{X}".toList, highlight := some 7 }]] []) ∨
      ({ text := "Y".toList, highlight := none } : Run).highlight = none) :=
  ⟨by decide, c3_no_highlight false [("X".toList, some "Y".toList)]
    (DocX.mk [[{ text := "{X}".toList, highlight := some 7 }]] [])
    { text := "Y".toList, highlight := none } (by decide)⟩

/-! ### Frame effect: paragraphs without resolvable placeholders -/

theorem replacePH_not_found {p : Paragraph} {ph : List Char} (v : Value)
    (h : containsSub ('{' :: (ph ++ ['}'])) (renderedText p) = false) :
    replace_placeholder_in_paragraph p ph v = (p, false) := by
  unfold replace_placeholder_in_paragraph
  dsimp only
  rw [if_pos (by simp [h])]

theorem exactPass_no_op {d : Data} {p : Paragraph}
    (h : ∀ kv ∈ d, containsSub ('{' :: (kv.1 ++ ['}'])) (renderedText p) = false) :
    exactPass d p = p := by
  unfold exactPass
  induction d with
  | nil => rfl
  | cons kv rest ih =>
    rw [List.foldl_cons, replacePH_not_found kv.2 (h kv (List.mem_cons_self _ _))]
    exact ih (fun e he => h e (List.mem_cons_of_mem _ he))

/-- **C10.** A paragraph whose rendered text contains no token `{k}` for any
record key `k` and no placeholder resolvable under normalized lookup is left
entirely unchanged by the fill — same run list, texts, formatting and
highlights — and is never pruned: it is processed to itself with the removal
flag down, and it survives into the output document (free-standing or as a
table-cell paragraph). -/
theorem c10_frame (trainee : Bool) (d : Data) (p : Paragraph)
    (h1 : ∀ kv ∈ d, containsSub ('{' :: (kv.1 ++ ['}'])) (renderedText p) = false)
    (h2 : find_placeholder_matches (renderedText p) d = []) :
    processParagraph trainee d p = (p, false) ∧
    (∀ doc : DocX, p ∈ doc.paragraphs → p ∈ (fillDocument trainee d doc).paragraphs) ∧
    (∀ cell : List Paragraph, p ∈ cell → p ∈ fillCell trainee d cell) := by
  have hmain : processParagraph trainee d p = (p, false) := by
    unfold processParagraph
    rw [exactPass_no_op h1]
    dsimp only
    rw [h2]
    simp only [List.foldl_nil]
    cases h3 : (findall (renderedText p)).any is_address_2_or_3_placeholder with
    | false => simp [h3]
    | true =>
      have hne : findall (renderedText p) ≠ [] := by
        intro hc
        rw [hc] at h3
        simp [List.any_nil] at h3
      have hb : '{' ∈ renderedText p := findall_brace hne
      have hstrip : pyStrip (renderedText p) ≠ [] :=
        pyStrip_ne_nil_of_mem hb (by decide)
      simp [decide_eq_false hstrip]
  have hkeep : ∀ l : List Paragraph, p ∈ l →
      p ∈ pruneProcessed (l.map (processParagraph trainee d)) := by
    intro l hp
    unfold pruneProcessed
    refine List.mem_map.mpr ⟨(p, false), ?_, rfl⟩
    refine List.mem_filter.mpr ⟨List.mem_map.mpr ⟨p, hp, hmain⟩, rfl⟩
  exact ⟨hmain, fun doc hp => hkeep doc.paragraphs hp, fun cell hp => hkeep cell hp⟩

/-- Witness for `c10_frame`: a paragraph mentioning only the unresolvable
placeholder `{Unknown}` against record `{"X": "1"}`. -/
theorem c10_frame_witness :
    (∀ kv ∈ ([("X".toList, some "1".toList)] : Data),
      containsSub ('{' :: (kv.1 ++ ['}']))
        (renderedText [{ text := "hello {Unknown}".toList }]) = false) ∧
    find_placeholder_matches (renderedText [{ text := "hello {Unknown}".toList }])
        [("X".toList, some "1".toList)] = [] ∧
    processParagraph false [("X".toList, some "1".toList)]
        [{ text := "hello {Unknown}".toList }] =
      ([{ text := "hello {Unknown}".toList }], false) :=
  ⟨by decide, rfl,
    (c10_frame false [("X".toList, some "1".toList)] [{ text := "hello {Unknown}".toList }]
      (by decide) rfl).1⟩

/-! ### The trainee-template pruning rule -/

theorem normalizedFold_flag (trainee : Bool)
    (ms0 : List (List Char × (List Char × Value))) :
    ∀ (ms : List (List Char × (List Char × Value))) (st : Paragraph × List Char × Bool),
    (∀ m ∈ ms, m ∈ ms0) →
    st.2.1 = renderedText st.1 →
    (st.2.2 = true → trainee = true ∧ pyStrip (renderedText st.1) = [] ∧
      ∃ m ∈ ms0, is_address_2_or_3_placeholder m.1 = true ∧ is_empty_value m.2.2 = true) →
    (let fin := ms.foldl (normalizedStep trainee) st
     fin.2.1 = renderedText fin.1 ∧
     (fin.2.2 = true → trainee = true ∧ pyStrip (renderedText fin.1) = [] ∧
       ∃ m ∈ ms0, is_address_2_or_3_placeholder m.1 = true ∧ is_empty_value m.2.2 = true)) := by
  intro ms
  induction ms with
  | nil => exact fun st _ hcur hflag => ⟨hcur, hflag⟩
  | cons m rest ih =>
    intro st hsub hcur hflag
    rw [List.foldl_cons]
    refine ih (normalizedStep trainee st m) (fun e he => hsub e (List.mem_cons_of_mem _ he)) ?_ ?_
    · unfold normalizedStep
      split
      · rfl
      · exact hcur
    · unfold normalizedStep
      split
      · rename_i hcontains
        intro hfl
        simp only [Bool.or_eq_true, Bool.and_eq_true] at hfl
        rcases hfl with hfl | ⟨⟨⟨htr, h23⟩, hemp⟩, hdec⟩
        · -- the flag was already up: but then the current text is whitespace-only,
          -- while the token test just succeeded on it, which is impossible
          obtain ⟨htr, hstrip, _⟩ := hflag hfl
          rw [hcur] at hcontains
          have hbr : '{' ∈ renderedText st.1 :=
            mem_of_containsSub hcontains (List.mem_cons_self _ _)
          have := pyStrip_all_space hstrip '{' hbr
          simp [pyIsSpace] at this
        · exact ⟨htr, of_decide_eq_true hdec,
            m, hsub m (List.mem_cons_self _ _), h23, hemp⟩
      · exact hflag

/-- **C5 counterexample.** A trainee-variant fill in which a paragraph whose
original text is exactly `{X}` — unrelated to any address-line placeholder —
is removed from the output: the value substituted for `{X}` is the text
`"{Address 2}"`, which the normalized pass then resolves (against the
lower-case key `"address 2"`) to the empty value, leaving the paragraph
empty and marked for removal. -/
theorem c5_counterexample :
    (findall "{X}".toList).any is_address_2_or_3_placeholder = false ∧
    (fill_placeholders "templates/trainee_template.docx".toList
        (DocX.mk [[{ text := "{X}".toList }]] [])
        [("X".toList, some "{Address 2}".toList),
         ("address 2".toList, some "".toList)]).paragraphs = [] := by
  exact ⟨rfl, rfl⟩

/-- **C5 (amended).** A paragraph is marked for removal only when the
template is the trainee variant, its rendered text after all substitutions is
empty or whitespace-only, and either its original text contained a
placeholder of the address-line-2/3 family, or the normalized pass matched an
address-line-2/3 placeholder with an empty resolved value in the paragraph's
text as it stood after the exact pass (such a placeholder can have been
introduced by earlier substitutions, per the counterexample, so 'unrelated
original text' alone does not guarantee survival; a paragraph whose final
text is not whitespace-only is never removed). -/
theorem c5_prune_only_if (trainee : Bool) (d : Data) (p : Paragraph)
    (h : (processParagraph trainee d p).2 = true) :
    trainee = true ∧
    pyStrip (renderedText (processParagraph trainee d p).1) = [] ∧
    ((findall (renderedText p)).any is_address_2_or_3_placeholder = true ∨
      ∃ m ∈ find_placeholder_matches (renderedText (exactPass d p)) d,
        is_address_2_or_3_placeholder m.1 = true ∧ is_empty_value m.2.2 = true) := by
  have hfold := normalizedFold_flag trainee
    (find_placeholder_matches (renderedText (exactPass d p)) d)
    (find_placeholder_matches (renderedText (exactPass d p)) d)
    (exactPass d p, renderedText (exactPass d p), false)
    (fun m hm => hm) rfl (by intro hc; cases hc)
  unfold processParagraph at h ⊢
  dsimp only at hfold h ⊢
  obtain ⟨hcur, hflag⟩ := hfold
  simp only [Bool.or_eq_true, Bool.and_eq_true] at h
  rcases h with h | ⟨⟨htr, hany⟩, hdec⟩
  · obtain ⟨htr, hstrip, m, hm, h23, hemp⟩ := hflag h
    exact ⟨htr, hstrip, Or.inr ⟨m, hm, h23, hemp⟩⟩
  · exact ⟨htr, of_decide_eq_true hdec, Or.inl hany⟩

/-- Witness for `c5_prune_only_if`: the spec's own pruning scenario, trainee
template with paragraph `"{Address 2}"` and value `""`. -/
theorem c5_prune_only_if_witness :
    (processParagraph true [("Address 2".toList, some "".toList)]
        [{ text := "{Address 2}".toList }]).2 = true ∧
    pyStrip (renderedText (processParagraph true [("Address 2".toList, some "".toList)]
        [{ text := "{Address 2}".toList }]).1) = [] :=
  ⟨by decide,
    (c5_prune_only_if true [("Address 2".toList, some "".toList)]
      [{ text := "{Address 2}".toList }] (by decide)).2.1⟩

/-! ### Positional lemmas for the run splicer -/

theorem take_append_length {α : Type} (A X : List α) (j : Nat) :
    (A ++ X).take (A.length + j) = A ++ X.take j := by
  induction A with
  | nil => simp
  | cons a A ih => simp [List.length_cons, Nat.succ_add, ih]

theorem drop_append_length {α : Type} (A X : List α) (j : Nat) :
    (A ++ X).drop (A.length + j) = X.drop j := by
  induction A with
  | nil => simp
  | cons a A ih => simp [List.length_cons, Nat.succ_add, ih]

theorem take_append_le {α : Type} {t : List α} (B : List α) {j : Nat}
    (h : j ≤ t.length) : (t ++ B).take j = t.take j := by
  induction t generalizing j with
  | nil =>
    simp at h
    simp [h]
  | cons a t ih =>
    cases j with
    | zero => simp
    | succ j =>
      simp only [List.cons_append, List.take_succ_cons]
      rw [ih (by simpa using h)]

theorem drop_append_le {α : Type} {t : List α} (B : List α) {j : Nat}
    (h : j ≤ t.length) : (t ++ B).drop j = t.drop j ++ B := by
  induction t generalizing j with
  | nil =>
    simp at h
    simp [h]
  | cons a t ih =>
    cases j with
    | zero => simp
    | succ j =>
      simp only [List.cons_append, List.drop_succ_cons]
      exact ih (by simpa using h)

theorem setRun_eq {q : List Run} {i : Nat} {r : Run} (f : Run → Run)
    (h : q.get? i = some r) :
    setRun q i f = q.take i ++ f r :: q.drop (i + 1) := by
  induction q generalizing i with
  | nil => simp at h
  | cons r1 rest ih =>
    cases i with
    | zero =>
      simp only [List.get?] at h
      injection h with h1
      simp [setRun, h1]
    | succ n =>
      simp only [List.get?] at h
      simp only [setRun, List.take_succ_cons, List.drop_succ_cons, List.cons_append]
      rw [ih h]

theorem renderedText_length_take_le {p : Paragraph} {i : Nat} :
    ∀ {r : Run}, p.get? i = some r →
    (renderedText (p.take i)).length + r.text.length ≤ (renderedText p).length := by
  induction p generalizing i with
  | nil => intro r h; simp at h
  | cons r1 rest ih =>
    intro r h
    cases i with
    | zero =>
      simp only [List.get?] at h
      injection h with h1
      subst h1
      simp only [List.take_zero, renderedText, List.length_append]
      simp [renderedText]
    | succ n =>
      simp only [List.get?] at h
      have := ih h
      simp only [List.take_succ_cons, renderedText, List.length_append]
      omega

theorem renderedText_decompAt {p : Paragraph} {i : Nat} {r : Run}
    (h : p.get? i = some r) :
    renderedText p = renderedText (p.take i) ++ r.text ++ renderedText (p.drop (i + 1)) := by
  induction p generalizing i with
  | nil => simp at h
  | cons r1 rest ih =>
    cases i with
    | zero =>
      simp only [List.get?] at h
      injection h with h1
      subst h1
      simp [renderedText_cons, renderedText]
    | succ n =>
      simp only [List.get?] at h
      simp only [List.take_succ_cons, List.drop_succ_cons]
      rw [renderedText_cons, renderedText_cons, ih h]
      simp [List.append_assoc]

theorem renderedText_setRun {q : Paragraph} {i : Nat} {r : Run} (f : Run → Run)
    (h : q.get? i = some r) :
    renderedText (setRun q i f) =
      renderedText (q.take i) ++ (f r).text ++ renderedText (q.drop (i + 1)) := by
  rw [setRun_eq f h, renderedText_append, renderedText_cons]
  simp [List.append_assoc]

theorem stripHighlightGo_take (rs : List Run) : ∀ (i a b k : Nat),
    (stripHighlightGo rs i a b).take k = stripHighlightGo (rs.take k) i a b := by
  induction rs with
  | nil => intro i a b k; simp [stripHighlightGo]
  | cons r rest ih =>
    intro i a b k
    cases k with
    | zero => simp [stripHighlightGo]
    | succ k =>
      simp only [stripHighlightGo, List.take_succ_cons]
      rw [ih]

theorem stripHighlightGo_drop (rs : List Run) : ∀ (i a b k : Nat),
    (stripHighlightGo rs i a b).drop k = stripHighlightGo (rs.drop k) (i + k) a b := by
  induction rs with
  | nil => intro i a b k; simp [stripHighlightGo]
  | cons r rest ih =>
    intro i a b k
    cases k with
    | zero => simp [stripHighlightGo]
    | succ k =>
      simp only [stripHighlightGo, List.drop_succ_cons]
      rw [ih]
      congr 1
      omega

theorem stripHighlightGo_get? (rs : List Run) : ∀ (i a b k : Nat),
    (stripHighlightGo rs i a b).get? k =
      (rs.get? k).map (fun r => if a ≤ i + k ∧ i + k ≤ b then removeHighlighting r else r) := by
  induction rs with
  | nil => intro i a b k; simp [stripHighlightGo]
  | cons r rest ih =>
    intro i a b k
    cases k with
    | zero => simp [stripHighlightGo, List.get?]
    | succ k =>
      simp only [stripHighlightGo, List.get?]
      rw [ih]
      rw [show i + 1 + k = i + (k + 1) from by omega]

theorem renderedText_stripHighlightGo (rs : List Run) : ∀ (i a b : Nat),
    renderedText (stripHighlightGo rs i a b) = renderedText rs := by
  induction rs with
  | nil => intro i a b; rfl
  | cons r rest ih =>
    intro i a b
    simp only [stripHighlightGo, renderedText_cons]
    rw [ih]
    split <;> rfl

theorem stripHighlightGo_length (rs : List Run) : ∀ (i a b : Nat),
    (stripHighlightGo rs i a b).length = rs.length := by
  induction rs with
  | nil => intro i a b; rfl
  | cons r rest ih =>
    intro i a b
    simp only [stripHighlightGo, List.length_cons]
    rw [ih]

theorem firstContaining_none {pat : List Char} {rs : List Run}
    (h : firstContaining pat rs = none) : ∀ r ∈ rs, containsSub pat r.text = false := by
  induction rs with
  | nil => intro r hr; simp at hr
  | cons r1 rest ih =>
    unfold firstContaining at h
    intro r hr
    split at h
    · simp at h
    · rcases List.mem_cons.mp hr with rfl | hr2
      · rename_i hc
        simpa using hc
      · simp only [Option.map_eq_none'] at h
        exact ih h r hr2

theorem countOcc_exists {pat s : List Char} (h : 0 < countOcc pat s) :
    ∃ i, OccursAt pat s i := by
  induction s with
  | nil =>
    rw [countOcc_nil] at h
    split at h
    · rename_i hst
      exact ⟨0, by simpa [OccursAt] using hst⟩
    · omega
  | cons c cs ih =>
    rw [countOcc_cons] at h
    by_cases hst : Starts pat (c :: cs)
    · exact ⟨0, occursAt_zero.mpr hst⟩
    · simp only [if_neg hst] at h
      obtain ⟨i, hi⟩ := ih (by omega)
      exact ⟨i + 1, occursAt_succ_cons.mpr hi⟩

theorem occursAt_embed {pat A t B : List Char} {j : Nat} (hp : pat ≠ [])
    (h : OccursAt pat t j) : OccursAt pat (A ++ (t ++ B)) (A.length + j) := by
  unfold OccursAt
  rw [drop_append_length]
  have hj : j ≤ t.length := by
    have := occursAt_bound hp h
    have := List.length_pos.mpr hp
    omega
  rw [drop_append_le B hj]
  exact starts_append_right B h

/-- An occurrence lying entirely inside the segment `[off, off + t.length]`
of `A ++ t ++ B` (with `A.length = off`) is an occurrence in `t`. -/
theorem occursAt_extract {pat A t B : List Char} {g : Nat}
    (h : OccursAt pat (A ++ (t ++ B)) g) (h1 : A.length ≤ g)
    (h2 : g + pat.length ≤ A.length + t.length) :
    OccursAt pat t (g - A.length) := by
  unfold OccursAt at h ⊢
  obtain ⟨u, hu⟩ := h
  have hg : g = A.length + (g - A.length) := by omega
  rw [hg, drop_append_length] at hu
  have hjle : g - A.length ≤ t.length := by omega
  have hple : pat.length ≤ (t.drop (g - A.length)).length := by
    simp only [List.length_drop]
    omega
  rw [drop_append_le B hjle] at hu
  apply starts_of_take
  have htake := congrArg (List.take pat.length) hu
  rw [take_append_le B hple] at htake
  rw [← htake]
  exact (List.take_left pat u).symm ▸ rfl

theorem scanIdxs_end : ∀ (rs : List Run) (i pos si phS phE : Nat),
    pos < phE → phE ≤ pos + (renderedText rs).length →
    ∃ b r, rs.get? b = some r ∧
      scanIdxs rs i pos (some si) phS phE = (some si, some (i + b)) ∧
      (renderedText (rs.take b)).length + pos < phE ∧
      phE ≤ (renderedText (rs.take b)).length + pos + r.text.length := by
  intro rs
  induction rs with
  | nil =>
    intro i pos si phS phE h1 h2
    exfalso
    simp only [renderedText, List.length_nil] at h2
    omega
  | cons r rest ih =>
    intro i pos si phS phE h1 h2
    unfold scanIdxs
    dsimp only
    rw [if_neg (show ¬ ((some si : Option Nat) = none ∧ pos ≤ phS ∧
      phS < pos + r.text.length) from by simp)]
    by_cases hend : pos < phE ∧ phE ≤ pos + r.text.length
    · rw [if_pos hend]
      refine ⟨0, r, rfl, by rw [Nat.add_zero], ?_, ?_⟩
      · simpa [renderedText] using h1
      · simpa [renderedText] using hend.2
    · rw [if_neg hend]
      have hlt : pos + r.text.length < phE := by
        rcases Decidable.not_and_iff_or_not.mp hend with hc | hc <;> omega
      have h2b : phE ≤ pos + r.text.length + (renderedText rest).length := by
        simp only [renderedText_cons, List.length_append] at h2
        omega
      obtain ⟨b, rb, hget, heq, hb1, hb2⟩ := ih (i+1) (pos + r.text.length) si phS phE hlt h2b
      refine ⟨b + 1, rb, by simpa [List.get?] using hget, ?_, ?_, ?_⟩
      · rw [heq]
        congr 2
        omega
      · simp only [List.take_succ_cons, renderedText_cons, List.length_append]
        omega
      · simp only [List.take_succ_cons, renderedText_cons, List.length_append]
        omega

theorem scanIdxs_start : ∀ (rs : List Run) (i pos phS phE : Nat),
    pos ≤ phS → phS < phE → phE ≤ pos + (renderedText rs).length →
    ∃ a b ra rb, a ≤ b ∧ rs.get? a = some ra ∧ rs.get? b = some rb ∧
      scanIdxs rs i pos none phS phE = (some (i + a), some (i + b)) ∧
      (renderedText (rs.take a)).length + pos ≤ phS ∧
      phS < (renderedText (rs.take a)).length + pos + ra.text.length ∧
      (renderedText (rs.take b)).length + pos < phE ∧
      phE ≤ (renderedText (rs.take b)).length + pos + rb.text.length := by
  intro rs
  induction rs with
  | nil =>
    intro i pos phS phE h1 h2 h3
    exfalso
    simp only [renderedText, List.length_nil] at h3
    omega
  | cons r rest ih =>
    intro i pos phS phE h1 h2 h3
    unfold scanIdxs
    dsimp only
    by_cases hsta : phS < pos + r.text.length
    · rw [if_pos (show (none : Option Nat) = none ∧ pos ≤ phS ∧
        phS < pos + r.text.length from ⟨rfl, h1, hsta⟩)]
      by_cases hend : pos < phE ∧ phE ≤ pos + r.text.length
      · rw [if_pos hend]
        refine ⟨0, 0, r, r, Nat.le_refl 0, rfl, rfl, by rw [Nat.add_zero], ?_, ?_, ?_, ?_⟩ <;>
          simp only [List.take_zero, renderedText, List.length_nil, Nat.zero_add] <;> omega
      · rw [if_neg hend]
        have hlt : pos + r.text.length < phE := by
          rcases Decidable.not_and_iff_or_not.mp hend with hc | hc <;> omega
        have h3b : phE ≤ pos + r.text.length + (renderedText rest).length := by
          simp only [renderedText_cons, List.length_append] at h3
          omega
        obtain ⟨b, rb, hget, heq, hb1, hb2⟩ := scanIdxs_end rest (i+1) (pos + r.text.length) i phS phE hlt h3b
        refine ⟨0, b + 1, r, rb, by omega, rfl, by simpa [List.get?] using hget, ?_, ?_, ?_, ?_, ?_⟩
        · rw [heq]
          congr 2
          omega
        · simp only [List.take_zero, renderedText, List.length_nil]
          omega
        · simp only [List.take_zero, renderedText, List.length_nil]
          omega
        · simp only [List.take_succ_cons, renderedText_cons, List.length_append]
          omega
        · simp only [List.take_succ_cons, renderedText_cons, List.length_append]
          omega
    · rw [if_neg (show ¬ ((none : Option Nat) = none ∧ pos ≤ phS ∧
        phS < pos + r.text.length) from by rintro ⟨h4, h5, h6⟩; exact hsta h6)]
      have hend : ¬ (pos < phE ∧ phE ≤ pos + r.text.length) := by
        rintro ⟨h4, h5⟩
        omega
      rw [if_neg hend]
      have h1b : pos + r.text.length ≤ phS := by omega
      have h3b : phE ≤ pos + r.text.length + (renderedText rest).length := by
        simp only [renderedText_cons, List.length_append] at h3
        omega
      obtain ⟨a, b, ra, rb, hab, hga, hgb, heq, ha1, ha2, hb1, hb2⟩ :=
        ih (i+1) (pos + r.text.length) phS phE h1b h2 h3b
      refine ⟨a + 1, b + 1, ra, rb, by omega, by simpa [List.get?] using hga,
        by simpa [List.get?] using hgb, ?_, ?_, ?_, ?_, ?_⟩
      · rw [heq]
        congr 2 <;> omega
      all_goals
        simp only [List.take_succ_cons, renderedText_cons, List.length_append]
        omega

theorem offsetsGo_after : ∀ (rs : List Run) (i pos si ei phS phE : Nat) (sb ea : List Char),
    si < i → i ≤ ei → ei < i + rs.length →
    ∃ rb, rs.get? (ei - i) = some rb ∧
      offsetsGo rs i pos si ei phS phE sb ea =
        (sb, rb.text.drop (phE - (pos + (renderedText (rs.take (ei - i))).length))) := by
  intro rs
  induction rs with
  | nil =>
    intro i pos si ei phS phE sb ea h1 h2 h3
    exfalso
    simp only [List.length_nil] at h3
    omega
  | cons r rest ih =>
    intro i pos si ei phS phE sb ea h1 h2 h3
    unfold offsetsGo
    rw [if_neg (by omega)]
    by_cases hie : i = ei
    · rw [if_pos hie]
      subst hie
      refine ⟨r, by simp [List.get?], ?_⟩
      simp only [Nat.sub_self, List.take_zero, renderedText, List.length_nil, Nat.add_zero]
    · rw [if_neg hie]
      have hlt : i < ei := by omega
      obtain ⟨rb, hget, heq⟩ := ih (i+1) (pos + r.text.length) si ei phS phE sb ea
        (by omega) (by omega) (by simp only [List.length_cons] at h3; omega)
      refine ⟨rb, ?_, ?_⟩
      · rw [show ei - i = (ei - (i+1)) + 1 from by omega]
        simpa [List.get?] using hget
      · rw [heq]
        rw [show ei - i = (ei - (i+1)) + 1 from by omega]
        simp only [List.take_succ_cons, renderedText_cons, List.length_append]
        congr 2
        omega

theorem offsetsGo_full : ∀ (rs : List Run) (i pos si ei phS phE : Nat) (sb ea : List Char),
    i ≤ si → si < ei → ei < i + rs.length →
    ∃ ra rb, rs.get? (si - i) = some ra ∧ rs.get? (ei - i) = some rb ∧
      offsetsGo rs i pos si ei phS phE sb ea =
        (ra.text.take (phS - (pos + (renderedText (rs.take (si - i))).length)),
         rb.text.drop (phE - (pos + (renderedText (rs.take (ei - i))).length))) := by
  intro rs
  induction rs with
  | nil =>
    intro i pos si ei phS phE sb ea h1 h2 h3
    exfalso
    simp only [List.length_nil] at h3
    omega
  | cons r rest ih =>
    intro i pos si ei phS phE sb ea h1 h2 h3
    unfold offsetsGo
    by_cases his : i = si
    · rw [if_pos his]
      subst his
      obtain ⟨rb, hget, heq⟩ := offsetsGo_after rest (i+1) (pos + r.text.length) i ei phS phE
        (r.text.take (phS - pos)) ea (by omega) (by omega)
        (by simp only [List.length_cons] at h3; omega)
      refine ⟨r, rb, by simp [List.get?], ?_, ?_⟩
      · rw [show ei - i = (ei - (i+1)) + 1 from by omega]
        simpa [List.get?] using hget
      · rw [heq]
        rw [show ei - i = (ei - (i+1)) + 1 from by omega]
        simp only [Nat.sub_self, List.take_zero, renderedText, List.length_nil, Nat.add_zero,
          List.take_succ_cons, renderedText_cons, List.length_append]
        congr 3
        omega
    · rw [if_neg his]
      rw [if_neg (by omega)]
      obtain ⟨ra, rb, hga, hgb, heq⟩ := ih (i+1) (pos + r.text.length) si ei phS phE sb ea
        (by omega) h2 (by simp only [List.length_cons] at h3; omega)
      refine ⟨ra, rb, ?_, ?_, ?_⟩
      · rw [show si - i = (si - (i+1)) + 1 from by omega]
        simpa [List.get?] using hga
      · rw [show ei - i = (ei - (i+1)) + 1 from by omega]
        simpa [List.get?] using hgb
      · rw [heq]
        rw [show si - i = (si - (i+1)) + 1 from by omega,
          show ei - i = (ei - (i+1)) + 1 from by omega]
        simp only [List.take_succ_cons, renderedText_cons, List.length_append]
        congr 3 <;> omega

theorem remove_all_eq (p : Paragraph) (a b : Nat) :
    remove_highlighting_from_all_runs p a b = stripHighlightGo p 0 a b := rfl

theorem setRun_append_left (A : List Run) : ∀ (B : List Run) (k : Nat) (f : Run → Run),
    setRun (A ++ B) (A.length + k) f = A ++ setRun B k f := by
  induction A with
  | nil => intro B k f; simp
  | cons a A ih =>
    intro B k f
    simp only [List.cons_append, List.length_cons]
    rw [show A.length + 1 + k = (A.length + k) + 1 from by omega]
    simp only [setRun]
    rw [ih]

theorem drop_eq_cons_of_get? {α : Type} {l : List α} {i : Nat} {x : α}
    (h : l.get? i = some x) : l.drop i = x :: l.drop (i + 1) := by
  induction l generalizing i with
  | nil => simp at h
  | cons a l ih =>
    cases i with
    | zero =>
      simp only [List.get?] at h
      injection h with h1
      simp [h1]
    | succ n =>
      simp only [List.get?] at h
      simp only [List.drop_succ_cons]
      exact ih h

theorem multiSplice_rendered {p : Paragraph} {si ei : Nat} {ra rb : Run}
    (rep : List Char) (phS phE : Nat)
    (hlt : si < ei) (hei : ei < p.length)
    (hra : p.get? si = some ra) (hrb : p.get? ei = some rb) :
    (multiSplice p rep phS phE si ei).2 = true ∧
    renderedText (multiSplice p rep phS phE si ei).1 =
      renderedText (p.take si) ++
        ra.text.take (phS - (renderedText (p.take si)).length) ++ rep ++
        rb.text.drop (phE - (renderedText (p.take ei)).length) ++
        renderedText (p.drop (ei + 1)) := by
  obtain ⟨ra', rb', hga, hgb, heq⟩ := offsetsGo_full p 0 0 si ei phS phE [] []
    (Nat.zero_le si) hlt (by omega)
  simp only [Nat.sub_zero, Nat.zero_add] at hga hgb heq
  rw [hga] at hra
  rw [hgb] at hrb
  injection hra with hra
  injection hrb with hrb
  subst hra
  subst hrb
  -- abbreviations
  have hAlen : (p.take si).length = si := by
    rw [List.length_take]
    omega
  have hp1get_si : (remove_highlighting_from_all_runs p si ei).get? si =
      some (removeHighlighting ra') := by
    rw [remove_all_eq, stripHighlightGo_get? p 0 si ei si, hga]
    simp only [Option.map_some']
    rw [if_pos ⟨by omega, by omega⟩]
  have hp1get_ei : (remove_highlighting_from_all_runs p si ei).get? ei =
      some (removeHighlighting rb') := by
    rw [remove_all_eq, stripHighlightGo_get? p 0 si ei ei, hgb]
    simp only [Option.map_some']
    rw [if_pos ⟨by omega, by omega⟩]
  have hp1len : (remove_highlighting_from_all_runs p si ei).length = p.length := by
    rw [remove_all_eq, stripHighlightGo_length]
  set p1 := remove_highlighting_from_all_runs p si ei with hp1def
  -- the spliced start run
  set x : Run := Run.mk (ra'.text.take (phS - (renderedText (p.take si)).length) ++ rep)
    ra'.bold ra'.italic ra'.underline ra'.fontSize ra'.fontName none with hxdef
  have hp2 : spliceStart p1 si (ra'.text.take (phS - (renderedText (p.take si)).length) ++ rep) =
      p1.take si ++ x :: p1.drop (si + 1) := by
    unfold spliceStart
    rw [if_pos (by omega)]
    rw [setRun_eq _ hp1get_si]
    rfl
  set p2 := spliceStart p1 si (ra'.text.take (phS - (renderedText (p.take si)).length) ++ rep)
    with hp2def
  have hA1len : (p1.take si).length = si := by
    rw [List.length_take]
    omega
  have hp2take : p2.take (si + 1) = p1.take si ++ [x] := by
    rw [hp2]
    have := take_append_length (p1.take si) (x :: p1.drop (si + 1)) 1
    rw [hA1len] at this
    rw [this]
    rfl
  have hp2drop : p2.drop ei = p1.drop ei := by
    rw [hp2]
    have h1 : p1.take si ++ x :: p1.drop (si + 1) =
        (p1.take si ++ [x]) ++ p1.drop (si + 1) := by
      simp
    rw [h1]
    have h2 : (p1.take si ++ [x]).length = si + 1 := by
      simp [hA1len]
    have h3 := drop_append_length (p1.take si ++ [x]) (p1.drop (si + 1)) (ei - si - 1)
    rw [h2] at h3
    rw [show ei = si + 1 + (ei - si - 1) from by omega, h3, List.drop_drop]
  have hp1dropei : p1.drop ei = removeHighlighting rb' :: p1.drop (ei + 1) :=
    drop_eq_cons_of_get? hp1get_ei
  have hp3 : removeMiddle p2 si ei = p1.take si ++ x :: removeHighlighting rb' :: p1.drop (ei + 1) := by
    unfold removeMiddle
    rw [hp2take, hp2drop, hp1dropei]
    simp
  -- now evaluate the splice
  unfold multiSplice
  rw [heq]
  dsimp only
  rw [hp3]
  have hlen3 : (p1.take si ++ x :: removeHighlighting rb' :: p1.drop (ei + 1)).length =
      si + 2 + (p.length - (ei + 1)) := by
    simp [hA1len, hp1len]
    omega
  rw [if_pos hlt]
  rw [if_pos (show ei - (ei - (si + 1)) < (p1.take si ++ x :: removeHighlighting rb' ::
      p1.drop (ei + 1)).length ∧ si < ei - (ei - (si + 1)) from by
    rw [hlen3]
    omega)]
  refine ⟨rfl, ?_⟩
  have hset : setRun (p1.take si ++ x :: removeHighlighting rb' :: p1.drop (ei + 1))
      (ei - (ei - (si + 1)))
      (fun r => { r with text := rb'.text.drop (phE - (renderedText (p.take ei)).length), highlight := none }) =
      p1.take si ++ x ::
        Run.mk (rb'.text.drop (phE - (renderedText (p.take ei)).length))
          rb'.bold rb'.italic rb'.underline rb'.fontSize rb'.fontName none ::
        p1.drop (ei + 1) := by
    rw [show ei - (ei - (si + 1)) = (p1.take si ++ [x]).length + 0 from by
      have hxl : (p1.take si ++ [x]).length = si + 1 := by simp [hA1len]
      rw [hxl]
      omega]
    have h4 : p1.take si ++ x :: removeHighlighting rb' :: p1.drop (ei + 1) =
        (p1.take si ++ [x]) ++ removeHighlighting rb' :: p1.drop (ei + 1) := by
      simp
    rw [h4, setRun_append_left]
    simp [setRun, removeHighlighting]
  dsimp only
  rw [hset]
  rw [renderedText_append, renderedText_cons, renderedText_cons]
  have hr1 : renderedText (p1.take si) = renderedText (p.take si) := by
    rw [hp1def, remove_all_eq, stripHighlightGo_take, renderedText_stripHighlightGo]
  have hr2 : renderedText (p1.drop (ei + 1)) = renderedText (p.drop (ei + 1)) := by
    rw [hp1def, remove_all_eq, stripHighlightGo_drop, renderedText_stripHighlightGo]
  rw [hr1, hr2]
  simp [List.append_assoc]

theorem firstContaining_some {pat : List Char} {rs : List Run} {i : Nat}
    (h : firstContaining pat rs = some i) :
    ∃ r, rs.get? i = some r ∧ containsSub pat r.text = true := by
  induction rs generalizing i with
  | nil => simp [firstContaining] at h
  | cons r1 rest ih =>
    unfold firstContaining at h
    split at h
    · rename_i hc
      injection h with h1
      subst h1
      exact ⟨r1, rfl, hc⟩
    · simp only [Option.map_eq_some'] at h
      obtain ⟨j, hj, rfl⟩ := h
      obtain ⟨r, hget, hcr⟩ := ih hj
      exact ⟨r, by simpa [List.get?] using hget, hcr⟩

theorem lt_length_of_get? {α : Type} {l : List α} {n : Nat} {a : α}
    (h : l.get? n = some a) : n < l.length := by
  by_contra hc
  rw [List.get?_eq_none.mpr (by omega)] at h
  cases h

/-- **C1 counterexample.** With a single run `"a{X}b{X}c"` and value `"V"`,
the cheap path's local `str.replace` rewrites every occurrence inside the
run, so the rendered result is `"aVbVc"`, not the claimed
`textBefore[:occurrenceStart] + value + textBefore[occurrenceEnd:]` (which
is `"aVb{X}c"`, the first occurrence being at offset 1). -/
theorem c1_counterexample :
    (replace_placeholder_in_paragraph [{ text := "a{X}b{X}c".toList }] "X".toList
        (some "V".toList)).2 = true ∧
    findSub (renderedText [({ text := "a{X}b{X}c".toList } : Run)]) ('{' :: ("X".toList ++ ['}'])) =
      some 1 ∧
    renderedText (replace_placeholder_in_paragraph [{ text := "a{X}b{X}c".toList }] "X".toList
        (some "V".toList)).1 = "aVbVc".toList ∧
    "aVbVc".toList ≠
      (renderedText [({ text := "a{X}b{X}c".toList } : Run)]).take 1 ++
        replacementFor "X".toList (some "V".toList) ++
        (renderedText [({ text := "a{X}b{X}c".toList } : Run)]).drop
          (1 + ('{' :: ("X".toList ++ ['}'])).length) := by
  exact ⟨rfl, rfl, rfl, by decide⟩

/-- Core splice correctness: a uniquely-occurring token is replaced exactly,
on the cheap path, the single-run safety path and the split path alike. -/
theorem replacePH_unique_occ (p : Paragraph) (ph : List Char) (v : Value)
    (h : countOcc ('{' :: (ph ++ ['}'])) (renderedText p) = 1) :
    (replace_placeholder_in_paragraph p ph v).2 = true ∧
    ∃ s, findSub (renderedText p) ('{' :: (ph ++ ['}'])) = some s ∧
      renderedText (replace_placeholder_in_paragraph p ph v).1 =
        (renderedText p).take s ++ replacementFor ph v ++
          (renderedText p).drop (s + ('{' :: (ph ++ ['}'])).length) := by
  have hpne : ('{' :: (ph ++ ['}'])) ≠ [] := by simp
  have hpatpos : 0 < ('{' :: (ph ++ ['}'])).length := by simp
  obtain ⟨g0, hg0⟩ := @countOcc_exists ('{' :: (ph ++ ['}'])) (renderedText p)
    (by omega)
  have hUniq : ∀ j k, OccursAt ('{' :: (ph ++ ['}'])) (renderedText p) j →
      OccursAt ('{' :: (ph ++ ['}'])) (renderedText p) k → j = k :=
    fun j k hj hk => countOcc_unique hpne (Nat.le_of_eq h) hj hk
  have hcont : containsSub ('{' :: (ph ++ ['}'])) (renderedText p) = true :=
    containsSub_iff.mpr ⟨g0, hg0⟩
  obtain ⟨s0, hs0le, hfind⟩ := findSub_of_occursAt hg0
  have hs0occ := (findSub_some hfind).1
  have hbound := occursAt_bound hpne hs0occ
  unfold replace_placeholder_in_paragraph
  dsimp only
  rw [if_neg (not_not_intro hcont)]
  cases hfc : firstContaining ('{' :: (ph ++ ['}'])) p with
  | some i =>
    -- cheap path: the chosen run contains the token, and by uniqueness its
    -- local occurrence is the global one
    simp only [hfc]
    obtain ⟨r, hget, hcontr⟩ := firstContaining_some hfc
    obtain ⟨j, hj⟩ := containsSub_iff.mp hcontr
    have hjb := occursAt_bound hpne hj
    have hdec := renderedText_decompAt hget
    rw [List.append_assoc] at hdec
    have hglob : OccursAt ('{' :: (ph ++ ['}'])) (renderedText p)
        ((renderedText (p.take i)).length + j) := by
      rw [hdec]
      exact occursAt_embed hpne hj
    have hs0 : s0 = (renderedText (p.take i)).length + j := hUniq _ _ hs0occ hglob
    have hlocU : ∀ j', OccursAt ('{' :: (ph ++ ['}'])) r.text j' → j' = j := by
      intro j' hj'
      have hglob' : OccursAt ('{' :: (ph ++ ['}'])) (renderedText p)
          ((renderedText (p.take i)).length + j') := by
        rw [hdec]
        exact occursAt_embed hpne hj'
      have := hUniq _ _ hglob' hglob
      omega
    have hrepl := replaceSub_unique (replacementFor ph v) hpne hj hlocU
    refine ⟨by simp, s0, hfind, ?_⟩
    rw [renderedText_setRun _ hget]
    simp only [hrepl]
    have htake : (renderedText p).take s0 =
        renderedText (p.take i) ++ r.text.take j := by
      conv_lhs => rw [hdec, hs0]
      rw [take_append_length]
      rw [take_append_le _ (by omega)]
    have hdrop : (renderedText p).drop (s0 + ('{' :: (ph ++ ['}'])).length) =
        r.text.drop (j + ('{' :: (ph ++ ['}'])).length) ++ renderedText (p.drop (i + 1)) := by
      conv_lhs => rw [hdec, show s0 + ('{' :: (ph ++ ['}'])).length =
        (renderedText (p.take i)).length + (j + ('{' :: (ph ++ ['}'])).length) from by omega]
      rw [drop_append_length]
      rw [drop_append_le _ (by omega)]
    rw [htake, hdrop]
    simp [List.append_assoc]
  | none =>
    -- split path
    simp only [hfc, hfind]
    obtain ⟨a, b, ra, rb, hab, hgeta, hgetb, hscan, ha1, ha2, hb1, hb2⟩ :=
      scanIdxs_start p 0 0 s0 (s0 + ('{' :: (ph ++ ['}'])).length)
        (Nat.zero_le _) (by omega) (by simpa using hbound)
    simp only [Nat.zero_add, Nat.add_zero] at hscan ha1 ha2 hb1 hb2
    simp only [hscan]
    have hfcall := firstContaining_none hfc
    have hane : a ≠ b := by
      intro hcontra
      subst hcontra
      rw [hgeta] at hgetb
      injection hgetb with hgetb
      subst hgetb
      have hdecA := renderedText_decompAt hgeta
      rw [List.append_assoc] at hdecA
      have hocc : OccursAt ('{' :: (ph ++ ['}'])) ra.text
          (s0 - (renderedText (p.take a)).length) := by
        apply occursAt_extract (B := renderedText (p.drop (a + 1)))
        · rw [← hdecA]
          exact hs0occ
        · omega
        · omega
      have := hfcall ra (List.get?_mem hgeta)
      rw [containsSub_iff.mpr ⟨_, hocc⟩] at this
      cases this
    rw [if_neg hane]
    have hltab : a < b := Nat.lt_of_le_of_ne hab hane
    have hblen : b < p.length := lt_length_of_get? hgetb
    obtain ⟨hflag, hrend⟩ := multiSplice_rendered (replacementFor ph v) s0
      (s0 + ('{' :: (ph ++ ['}'])).length) hltab hblen hgeta hgetb
    refine ⟨hflag, s0, rfl, ?_⟩
    rw [hrend]
    have hdecA := renderedText_decompAt hgeta
    rw [List.append_assoc] at hdecA
    have hdecB := renderedText_decompAt hgetb
    rw [List.append_assoc] at hdecB
    have htake : (renderedText p).take s0 =
        renderedText (p.take a) ++ ra.text.take (s0 - (renderedText (p.take a)).length) := by
      conv_lhs => rw [hdecA, show s0 =
        (renderedText (p.take a)).length + (s0 - (renderedText (p.take a)).length) from by omega]
      rw [take_append_length]
      rw [take_append_le _ (by omega)]
    have hdrop : (renderedText p).drop (s0 + ('{' :: (ph ++ ['}'])).length) =
        rb.text.drop (s0 + ('{' :: (ph ++ ['}'])).length -
            (renderedText (p.take b)).length) ++
          renderedText (p.drop (b + 1)) := by
      conv_lhs => rw [hdecB, show s0 + ('{' :: (ph ++ ['}'])).length =
        (renderedText (p.take b)).length +
          (s0 + ('{' :: (ph ++ ['}'])).length - (renderedText (p.take b)).length) from by omega]
      rw [drop_append_length]
      rw [drop_append_le _ (by omega)]
    rw [htake, hdrop]
    simp [List.append_assoc]

/-- **C1 (amended).** For every paragraph whose rendered text contains the
token `{name}` exactly once (counting all positions), and every value,
`_replace_placeholder_in_paragraph` returns `True` and the paragraph's
rendered text afterwards equals
`textBefore[:occurrenceStart] ++ transformedValue ++ textBefore[occurrenceEnd:]`,
where `[occurrenceStart, occurrenceEnd)` is that occurrence and
`transformedValue` is the §4.4 transform of the value — on the single-run
(cheap) path, the single-run safety path and the multi-run (split) path
alike.  (When the token occurs more than once the guarantee fails, per the
counterexample: the cheap path rewrites every occurrence inside the chosen
run, and the chosen run is the first containing the whole token, not
necessarily the one with the first occurrence.) -/
theorem c1_unique_splice (p : Paragraph) (ph : List Char) (v : Value)
    (h : countOcc ('{' :: (ph ++ ['}'])) (renderedText p) = 1) :
    (replace_placeholder_in_paragraph p ph v).2 = true ∧
    ∃ s, findSub (renderedText p) ('{' :: (ph ++ ['}'])) = some s ∧
      renderedText (replace_placeholder_in_paragraph p ph v).1 =
        (renderedText p).take s ++ replacementFor ph v ++
          (renderedText p).drop (s + ('{' :: (ph ++ ['}'])).length) :=
  replacePH_unique_occ p ph v h

/-- Witness for `c1_unique_splice`: the token `{X}` split across two runs
`"{X"` / `"} tail"`. -/
theorem c1_unique_splice_witness :
    countOcc ('{' :: ("X".toList ++ ['}']))
        (renderedText [{ text := "\x7bX".toList }, { text := "\x7d tail".toList }]) = 1 ∧
    (replace_placeholder_in_paragraph [{ text := "\x7bX".toList }, { text := "\x7d tail".toList }]
        "X".toList (some "abc".toList)).2 = true :=
  ⟨by decide,
    (c1_unique_splice [{ text := "\x7bX".toList }, { text := "\x7d tail".toList }]
      "X".toList (some "abc".toList) (by decide)).1⟩

/-! ### Single-token texts: the round-trip argument -/

theorem get?_of_starts_cons {s : List Char} {g : Nat} {c : Char} {tail : List Char}
    (h : Starts (c :: tail) (s.drop g)) : s.get? g = some c := by
  obtain ⟨t, ht⟩ := h
  have h0 : (s.drop g).get? 0 = some c := by
    rw [← ht]
    rfl
  rw [List.get?_drop, Nat.add_zero] at h0
  exact h0

theorem get?_unique_brace : ∀ (A : List Char) (k B : List Char) (g : Nat),
    '{' ∉ A → '{' ∉ k → '{' ∉ B →
    (A ++ ('{' :: (k ++ ['}'])) ++ B).get? g = some '{' → g = A.length := by
  intro A
  induction A with
  | nil =>
    intro k B g hA hk hB hg
    cases g with
    | zero => rfl
    | succ n =>
      exfalso
      simp only [List.nil_append, List.get?] at hg
      have hmem := List.get?_mem hg
      rcases List.mem_append.mp hmem with hm | hm
      · rcases List.mem_append.mp hm with hm2 | hm2
        · exact hk hm2
        · have := List.mem_singleton.mp hm2
          exact absurd this (by decide)
      · exact hB hm
  | cons a A ih =>
    intro k B g hA hk hB hg
    cases g with
    | zero =>
      exfalso
      simp only [List.cons_append, List.get?] at hg
      injection hg with hg
      exact hA (hg ▸ List.mem_cons_self _ _)
    | succ n =>
      simp only [List.cons_append, List.get?] at hg
      rw [List.length_cons]
      have := ih k B n (fun hm => hA (List.mem_cons_of_mem _ hm)) hk hB hg
      omega

theorem key_eq_of_starts : ∀ (k k' B : List Char), '}' ∉ k → '}' ∉ k' →
    Starts (k' ++ ['}']) (k ++ '}' :: B) → k' = k := by
  intro k
  induction k with
  | nil =>
    intro k' B hk hk' hst
    cases k' with
    | nil => rfl
    | cons c k2 =>
      exfalso
      obtain ⟨t, ht⟩ := hst
      simp only [List.cons_append, List.nil_append] at ht
      injection ht with h1 h2
      exact hk' (h1 ▸ List.mem_cons_self _ _)
  | cons a k2 ih =>
    intro k' B hk hk' hst
    cases k' with
    | nil =>
      exfalso
      obtain ⟨t, ht⟩ := hst
      simp only [List.nil_append, List.cons_append] at ht
      injection ht with h1 h2
      exact hk (h1 ▸ List.mem_cons_self _ _)
    | cons c k2' =>
      obtain ⟨t, ht⟩ := hst
      simp only [List.cons_append] at ht
      injection ht with h1 h2
      have := ih k2' B (fun hm => hk (List.mem_cons_of_mem _ hm))
        (fun hm => hk' (List.mem_cons_of_mem _ hm)) ⟨t, h2⟩
      rw [h1, this]

/-- In `A ++ "{k}" ++ B` with brace-free `A`, `k`, `B`, any occurrence of a
token `{q}` (with `}`-free `q`) is the whole distinguished token. -/
theorem token_occursAt_unique {A k B q : List Char} {g : Nat}
    (hA : braceFree A) (hk : braceFree k) (hB : braceFree B) (hq : '}' ∉ q)
    (h : OccursAt ('{' :: (q ++ ['}'])) (A ++ ('{' :: (k ++ ['}'])) ++ B) g) :
    g = A.length ∧ q = k := by
  have hget := get?_of_starts_cons h
  have hgA : g = A.length := get?_unique_brace A k B g hA.1 hk.1 hB.1 hget
  subst hgA
  refine ⟨rfl, ?_⟩
  unfold OccursAt at h
  obtain ⟨t, ht⟩ := h
  rw [show A.length = A.length + 0 from rfl, List.append_assoc, drop_append_length] at ht
  simp only [List.drop_zero] at ht
  injection ht with h1 h2
  exact key_eq_of_starts k q (B := B) hk.2 hq ⟨t, by simpa using h2⟩

theorem countOcc_eq_zero {pat s : List Char} (h : ∀ i, ¬ OccursAt pat s i) :
    countOcc pat s = 0 := by
  induction s with
  | nil =>
    rw [countOcc_nil, if_neg]
    intro hst
    exact h 0 (by simpa [OccursAt] using hst)
  | cons c cs ih =>
    rw [countOcc_cons, if_neg (fun hst => h 0 (occursAt_zero.mpr hst))]
    rw [ih (fun i hi => h (i + 1) (occursAt_succ_cons.mpr hi))]

theorem countOcc_eq_one {pat s : List Char} {i : Nat} (hp : pat ≠ [])
    (hi : OccursAt pat s i) (hu : ∀ j, OccursAt pat s j → j = i) :
    countOcc pat s = 1 := by
  induction s generalizing i with
  | nil =>
    obtain ⟨t, ht⟩ : Starts pat [] := by simpa [OccursAt] using hi
    have hl := congrArg List.length ht
    have hpos := List.length_pos.mpr hp
    simp only [List.length_append, List.length_nil] at hl
    omega
  | cons c cs ih =>
    rw [countOcc_cons]
    cases i with
    | zero =>
      rw [if_pos (occursAt_zero.mp hi)]
      rw [countOcc_eq_zero]
      intro j hj
      exact absurd (hu (j + 1) (occursAt_succ_cons.mpr hj)) (by omega)
    | succ i =>
      rw [if_neg (fun hst => by simpa using hu 0 (occursAt_zero.mpr hst))]
      rw [ih (occursAt_succ_cons.mp hi)
        (fun j hj => by have := hu (j + 1) (occursAt_succ_cons.mpr hj); omega)]

theorem containsSub_false_of_no_brace {tail s : List Char} (h : '{' ∉ s) :
    containsSub ('{' :: tail) s = false := by
  rw [containsSub_eq_false]
  intro i hi
  exact h (List.get?_mem (get?_of_starts_cons hi))

theorem pyStrip_subset {s : List Char} {c : Char} (h : c ∈ pyStrip s) : c ∈ s := by
  unfold pyStrip at h
  rw [List.mem_reverse] at h
  have h1 := List.dropWhile_sublist (l := (s.dropWhile pyIsSpace).reverse) pyIsSpace
  have h2 := h1.mem h
  rw [List.mem_reverse] at h2
  exact (List.dropWhile_sublist pyIsSpace).mem h2

theorem replacementFor_braceFree {k : List Char} {v : Value}
    (hv : ∀ s, v = some s → braceFree s) : braceFree (replacementFor k v) := by
  have hrv : braceFree (sentinelValue v) := by
    cases v with
    | none => exact ⟨by simp [sentinelValue], by simp [sentinelValue]⟩
    | some s =>
      rw [show sentinelValue (some s) = if pyLower s = "nan".toList ∨
          pyLower s = "none".toList ∨ pyLower s = [] then [] else pyStrip s from rfl]
      split
      · exact ⟨by simp, by simp⟩
      · obtain ⟨h1, h2⟩ := hv s rfl
        exact ⟨fun hm => h1 (pyStrip_subset hm), fun hm => h2 (pyStrip_subset hm)⟩
  unfold replacementFor
  dsimp only
  split
  · constructor
    · intro hm
      rcases mem_addAtMarkers hm with hm2 | hm2
      · obtain ⟨c, hc, heq⟩ := List.mem_map.mp hm2
        by_cases h0 : c = ' '
        · rw [if_pos h0] at heq
          exact absurd heq (by decide)
        · rw [if_neg h0] at heq
          exact hrv.1 (heq ▸ hc)
      · exact absurd hm2 (by decide)
    · intro hm
      rcases mem_addAtMarkers hm with hm2 | hm2
      · obtain ⟨c, hc, heq⟩ := List.mem_map.mp hm2
        by_cases h0 : c = ' '
        · rw [if_pos h0] at heq
          exact absurd heq (by decide)
        · rw [if_neg h0] at heq
          exact hrv.2 (heq ▸ hc)
      · exact absurd hm2 (by decide)
  · exact hrv

theorem token_containsSub_ne {A k B q : List Char}
    (hA : braceFree A) (hk : braceFree k) (hB : braceFree B) (hq : '}' ∉ q) (hne : q ≠ k) :
    containsSub ('{' :: (q ++ ['}'])) (A ++ ('{' :: (k ++ ['}'])) ++ B) = false := by
  rw [containsSub_eq_false]
  intro g hg
  exact hne (token_occursAt_unique hA hk hB hq hg).2

theorem token_countOcc_one {A k B : List Char}
    (hA : braceFree A) (hk : braceFree k) (hB : braceFree B) :
    countOcc ('{' :: (k ++ ['}'])) (A ++ ('{' :: (k ++ ['}'])) ++ B) = 1 := by
  have hocc : OccursAt ('{' :: (k ++ ['}'])) (A ++ ('{' :: (k ++ ['}'])) ++ B) A.length := by
    unfold OccursAt
    rw [show A.length = A.length + 0 from rfl, List.append_assoc, drop_append_length]
    simp only [List.drop_zero]
    exact ⟨B, by simp⟩
  exact countOcc_eq_one (by simp) hocc
    (fun j hj => (token_occursAt_unique hA hk hB hk.2 hj).1)

theorem findallF_no_brace : ∀ (fuel : Nat) (s : List Char), '{' ∉ s →
    findallF fuel s = [] := by
  intro fuel
  induction fuel with
  | zero => intro s h; rfl
  | succ fuel ih =>
    intro s h
    cases s with
    | nil => rfl
    | cons c cs =>
      have hc : ¬ c = '{' := fun hc => h (hc ▸ List.mem_cons_self _ _)
      simp only [findallF, if_neg hc]
      exact ih cs (fun hm => h (List.mem_cons_of_mem _ hm))

theorem findall_no_brace {s : List Char} (h : '{' ∉ s) : findall s = [] :=
  findallF_no_brace s.length s h

theorem braceFree_append {x y : List Char} (hx : braceFree x) (hy : braceFree y) :
    braceFree (x ++ y) := by
  constructor
  · intro hm
    rcases List.mem_append.mp hm with hm | hm
    · exact hx.1 hm
    · exact hy.1 hm
  · intro hm
    rcases List.mem_append.mp hm with hm | hm
    · exact hx.2 hm
    · exact hy.2 hm

theorem foldl_replacePH_no_brace : ∀ (d : Data) (q : Paragraph),
    '{' ∉ renderedText q →
    d.foldl (fun q kv => (replace_placeholder_in_paragraph q kv.1 kv.2).1) q = q := by
  intro d
  induction d with
  | nil => intro q hq; rfl
  | cons kv rest ih =>
    intro q hq
    rw [List.foldl_cons, replacePH_not_found kv.2 (containsSub_false_of_no_brace hq)]
    exact ih q hq

theorem foldl_replacePH_other_keys {A k B : List Char}
    (hA : braceFree A) (hk : braceFree k) (hB : braceFree B) :
    ∀ (d : Data) (q : Paragraph),
    renderedText q = A ++ ('{' :: (k ++ ['}'])) ++ B →
    (∀ kv ∈ d, '}' ∉ kv.1 ∧ kv.1 ≠ k) →
    d.foldl (fun q kv => (replace_placeholder_in_paragraph q kv.1 kv.2).1) q = q := by
  intro d
  induction d with
  | nil => intro q hq hother; rfl
  | cons kv rest ih =>
    intro q hq hother
    obtain ⟨h1, h2⟩ := hother kv (List.mem_cons_self _ _)
    rw [List.foldl_cons, replacePH_not_found kv.2
      (by rw [hq]; exact token_containsSub_ne hA hk hB h1 h2)]
    exact ih q hq (fun e he => hother e (List.mem_cons_of_mem _ he))

/-- The single replacement step on a paragraph whose text is exactly one
token between brace-free context. -/
theorem replacePH_token {p : Paragraph} {A k B : List Char} (v : Value)
    (hp : renderedText p = A ++ ('{' :: (k ++ ['}'])) ++ B)
    (hA : braceFree A) (hk : braceFree k) (hB : braceFree B) :
    renderedText (replace_placeholder_in_paragraph p k v).1 =
      A ++ replacementFor k v ++ B := by
  have hcount : countOcc ('{' :: (k ++ ['}'])) (renderedText p) = 1 := by
    rw [hp]
    exact token_countOcc_one hA hk hB
  obtain ⟨hflag, s, hfind, hrend⟩ := replacePH_unique_occ p k v hcount
  have hso := (findSub_some hfind).1
  rw [hp] at hso
  have hsA : s = A.length := (token_occursAt_unique hA hk hB hk.2 hso).1
  rw [hrend, hp, hsA]
  have ht : (A ++ ('{' :: (k ++ ['}'])) ++ B).take A.length = A := by
    rw [List.append_assoc]
    exact List.take_left A _
  have hd : (A ++ ('{' :: (k ++ ['}'])) ++ B).drop
      (A.length + ('{' :: (k ++ ['}'])).length) = B := by
    rw [List.append_assoc, drop_append_length]
    exact List.drop_left _ _
  rw [ht, hd]

theorem exactPass_token {d : Data} {p : Paragraph} {A k B : List Char} {v : Value}
    (hnd : (d.map Prod.fst).Nodup)
    (hkeys : ∀ kv ∈ d, braceFree kv.1)
    (hvals : ∀ kv ∈ d, ∀ s, kv.2 = some s → braceFree s)
    (hkv : (k, v) ∈ d)
    (hp : renderedText p = A ++ ('{' :: (k ++ ['}'])) ++ B)
    (hA : braceFree A) (hB : braceFree B) :
    renderedText (exactPass d p) = A ++ replacementFor k v ++ B ∧
    braceFree (renderedText (exactPass d p)) := by
  have hk : braceFree k := hkeys (k, v) hkv
  have hv : ∀ s, v = some s → braceFree s := fun s hs => hvals (k, v) hkv s hs
  obtain ⟨d1, d2, hd⟩ := List.append_of_mem hkv
  subst hd
  rw [List.map_append, List.map_cons] at hnd
  have hdisj := List.disjoint_of_nodup_append hnd
  have hother : ∀ kv ∈ d1, '}' ∉ kv.1 ∧ kv.1 ≠ k := by
    intro kv hkv1
    refine ⟨(hkeys kv (List.mem_append.mpr (Or.inl hkv1))).2, ?_⟩
    intro hek
    exact hdisj (List.mem_map.mpr ⟨kv, hkv1, rfl⟩)
      (by rw [hek]; exact List.mem_cons_self _ _)
  have hq1 : renderedText (replace_placeholder_in_paragraph p k v).1 =
      A ++ replacementFor k v ++ B := replacePH_token v hp hA hk hB
  have hbf : braceFree (A ++ replacementFor k v ++ B) :=
    braceFree_append (braceFree_append hA (replacementFor_braceFree hv)) hB
  unfold exactPass
  rw [List.foldl_append, List.foldl_cons,
    foldl_replacePH_other_keys hA hk hB d1 p hp hother,
    foldl_replacePH_no_brace d2 (replace_placeholder_in_paragraph p k v).1
      (by rw [hq1]; exact hbf.1),
    hq1]
  exact ⟨rfl, hbf⟩

theorem processParagraph_fst (trainee : Bool) (d : Data) (p : Paragraph)
    (h : '{' ∉ renderedText (exactPass d p)) :
    (processParagraph trainee d p).1 = exactPass d p := by
  unfold processParagraph
  dsimp only
  unfold find_placeholder_matches
  dsimp only
  rw [findall_no_brace h]
  rfl

theorem processParagraph_flag (d : Data) (p : Paragraph)
    (h : '{' ∉ renderedText (exactPass d p)) :
    (processParagraph false d p).2 = false := by
  unfold processParagraph
  dsimp only
  unfold find_placeholder_matches
  dsimp only
  rw [findall_no_brace h]
  rfl

theorem processParagraph_of_braceFree (trainee : Bool) (d : Data) {p : Paragraph}
    (hbf : braceFree (renderedText p)) :
    (processParagraph trainee d p).1 = p := by
  have hE : exactPass d p = p :=
    exactPass_no_op (fun kv _ => containsSub_false_of_no_brace hbf.1)
  rw [processParagraph_fst trainee d p (by rw [hE]; exact hbf.1), hE]

theorem processParagraph_token (trainee : Bool) {d : Data} {p : Paragraph}
    {A k B : List Char} {v : Value}
    (hnd : (d.map Prod.fst).Nodup)
    (hkeys : ∀ kv ∈ d, braceFree kv.1)
    (hvals : ∀ kv ∈ d, ∀ s, kv.2 = some s → braceFree s)
    (hkv : (k, v) ∈ d)
    (hp : renderedText p = A ++ ('{' :: (k ++ ['}'])) ++ B)
    (hA : braceFree A) (hB : braceFree B) :
    renderedText (processParagraph trainee d p).1 = A ++ replacementFor k v ++ B ∧
    braceFree (renderedText (processParagraph trainee d p).1) := by
  obtain ⟨h1, h2⟩ := exactPass_token hnd hkeys hvals hkv hp hA hB
  rw [processParagraph_fst trainee d p h2.1]
  exact ⟨h1, h2⟩

theorem pruneProcessed_mem {xs : List (Paragraph × Bool)} {x : Paragraph × Bool}
    (hx : x ∈ xs) (hf : x.2 = false) : x.1 ∈ pruneProcessed xs := by
  unfold pruneProcessed
  exact List.mem_map_of_mem _ (List.mem_filter.mpr ⟨hx, by simp [hf]⟩)

theorem mem_allParas_fillDocument {trainee : Bool} {d : Data} {doc : DocX}
    {q : Paragraph} (h : q ∈ allParas (fillDocument trainee d doc)) :
    ∃ p, p ∈ allParas doc ∧ q = (processParagraph trainee d p).1 := by
  unfold allParas at h ⊢
  rcases List.mem_append.mp h with h1 | h1
  · obtain ⟨x, hx, rfl⟩ := mem_pruneProcessed h1
    obtain ⟨p, hp, rfl⟩ := List.mem_map.mp hx
    exact ⟨p, List.mem_append_left _ hp, rfl⟩
  · obtain ⟨tflat, htf, hq1⟩ := List.mem_flatten.mp h1
    obtain ⟨t1, ht1, rfl⟩ := List.mem_map.mp htf
    obtain ⟨t, ht, rfl⟩ := List.mem_map.mp ht1
    obtain ⟨rowflat, hrf, hq2⟩ := List.mem_flatten.mp hq1
    obtain ⟨row1, hrow1, rfl⟩ := List.mem_map.mp hrf
    obtain ⟨row, hrow, rfl⟩ := List.mem_map.mp hrow1
    obtain ⟨cellout, hco, hq3⟩ := List.mem_flatten.mp hq2
    obtain ⟨cell, hcell, rfl⟩ := List.mem_map.mp hco
    obtain ⟨x, hx, rfl⟩ := mem_pruneProcessed hq3
    obtain ⟨p, hp, rfl⟩ := List.mem_map.mp hx
    refine ⟨p, List.mem_append_right _ ?_, rfl⟩
    refine List.mem_flatten.mpr ⟨_, List.mem_map_of_mem _ ht, ?_⟩
    refine List.mem_flatten.mpr ⟨_, List.mem_map_of_mem _ hrow, ?_⟩
    exact List.mem_flatten.mpr ⟨cell, hcell, hp⟩

theorem mem_allParas_fillDocument_of_mem {trainee : Bool} {d : Data} {doc : DocX}
    {p : Paragraph} (hp : p ∈ allParas doc)
    (hf : (processParagraph trainee d p).2 = false) :
    (processParagraph trainee d p).1 ∈ allParas (fillDocument trainee d doc) := by
  unfold allParas at hp ⊢
  rcases List.mem_append.mp hp with h1 | h1
  · exact List.mem_append_left _ (pruneProcessed_mem (List.mem_map_of_mem _ h1) hf)
  · obtain ⟨tflat, htf, hp1⟩ := List.mem_flatten.mp h1
    obtain ⟨t, ht, rfl⟩ := List.mem_map.mp htf
    obtain ⟨rowflat, hrf, hp2⟩ := List.mem_flatten.mp hp1
    obtain ⟨row, hrow, rfl⟩ := List.mem_map.mp hrf
    obtain ⟨cell, hcell, hp3⟩ := List.mem_flatten.mp hp2
    refine List.mem_append_right _ ?_
    refine List.mem_flatten.mpr ⟨_, List.mem_map_of_mem _ (List.mem_map_of_mem _ ht), ?_⟩
    refine List.mem_flatten.mpr ⟨_, List.mem_map_of_mem _ (List.mem_map_of_mem _ hrow), ?_⟩
    refine List.mem_flatten.mpr ⟨_, List.mem_map_of_mem _ hcell, ?_⟩
    exact pruneProcessed_mem (List.mem_map_of_mem _ hp3) hf

theorem tokText_seg_append (rest : List ((List Char × Value) × List Char))
    (a b : List Char) : tokText (a ++ b) rest = a ++ tokText b rest := by
  cases rest with
  | nil => rfl
  | cons x r => simp [tokText, List.append_assoc]

theorem tokFilled_seg_append (rest : List ((List Char × Value) × List Char))
    (a b : List Char) : tokFilledText (a ++ b) rest = a ++ tokFilledText b rest := by
  cases rest with
  | nil => rfl
  | cons x r => simp [tokFilledText, List.append_assoc]

theorem tokText_append : ∀ (pre : List ((List Char × Value) × List Char))
    (s0 : List Char) (e : (List Char × Value) × List Char)
    (post : List ((List Char × Value) × List Char)),
    tokText s0 (pre ++ e :: post) =
      tokText s0 pre ++ ('{' :: (e.1.1 ++ ['}'])) ++ tokText e.2 post := by
  intro pre
  induction pre with
  | nil => intro s0 e post; rfl
  | cons a pre ih =>
    intro s0 e post
    simp only [List.cons_append, tokText, List.append_eq]
    rw [ih]
    simp [List.append_assoc]

theorem tokFilled_append : ∀ (pre : List ((List Char × Value) × List Char))
    (s0 : List Char) (e : (List Char × Value) × List Char)
    (post : List ((List Char × Value) × List Char)),
    tokFilledText s0 (pre ++ e :: post) =
      tokFilledText s0 pre ++ replacementFor e.1.1 e.1.2 ++ tokFilledText e.2 post := by
  intro pre
  induction pre with
  | nil => intro s0 e post; rfl
  | cons a pre ih =>
    intro s0 e post
    simp only [List.cons_append, tokFilledText, List.append_eq]
    rw [ih]
    simp [List.append_assoc]

/-- An occurrence of a pattern that begins with `'{'` cannot begin inside a
`'{'`-free prefix. -/
theorem occ_shift : ∀ (A : List Char) {t tail : List Char} {g : Nat}, '{' ∉ A →
    OccursAt ('{' :: tail) (A ++ t) g →
    A.length ≤ g ∧ OccursAt ('{' :: tail) t (g - A.length) := by
  intro A
  induction A with
  | nil =>
    intro t tail g _ h
    exact ⟨Nat.zero_le g, by simpa using h⟩
  | cons a A ih =>
    intro t tail g hA h
    cases g with
    | zero =>
      exfalso
      obtain ⟨u, hu⟩ := occursAt_zero.mp h
      simp only [List.cons_append] at hu
      injection hu with h1 _
      exact hA (by rw [h1]; exact List.mem_cons_self _ _)
    | succ g =>
      have h2 : OccursAt ('{' :: tail) (A ++ t) g :=
        occursAt_succ_cons.mp (by simpa [List.cons_append] using h)
      obtain ⟨hle, hocc⟩ := ih (fun hm => hA (List.mem_cons_of_mem _ hm)) h2
      refine ⟨by simpa using Nat.succ_le_succ hle, ?_⟩
      simpa [Nat.succ_sub_succ] using hocc

/-- A token pattern starting exactly at another token's opening brace has
that token's name. -/
theorem tok_head_name {k Y q : List Char} (hk : '}' ∉ k) (hq : '}' ∉ q)
    (h : Starts ('{' :: (q ++ ['}'])) (('{' :: (k ++ ['}'])) ++ Y)) : q = k := by
  obtain ⟨u, hu⟩ := h
  simp only [List.cons_append] at hu
  injection hu with _ h2
  exact key_eq_of_starts k q Y hk hq ⟨u, by simpa [List.append_assoc] using h2⟩

/-- Every occurrence of a well-formed token pattern in a rendered layout is
one of the layout's own tokens, at that token's position. -/
theorem tokText_occ_elim : ∀ (rest : List ((List Char × Value) × List Char))
    (s0 q : List Char) (g : Nat),
    '{' ∉ s0 → (∀ x ∈ rest, braceFree x.1.1) → (∀ x ∈ rest, '{' ∉ x.2) →
    '}' ∉ q →
    OccursAt ('{' :: (q ++ ['}'])) (tokText s0 rest) g →
    ∃ pre e post, rest = pre ++ e :: post ∧ q = e.1.1 ∧
      g = (tokText s0 pre).length := by
  intro rest
  induction rest with
  | nil =>
    intro s0 q g hs0 _ _ _ h
    exact absurd (List.get?_mem (get?_of_starts_cons h)) hs0
  | cons x rest ih =>
    intro s0 q g hs0 hkeys hsegs hq h
    rw [show tokText s0 (x :: rest) =
        s0 ++ (('{' :: (x.1.1 ++ ['}'])) ++ tokText x.2 rest) from by
      simp [tokText, List.append_assoc]] at h
    obtain ⟨hle, hocc⟩ := occ_shift s0 hs0 h
    cases hg2 : g - s0.length with
    | zero =>
      rw [hg2] at hocc
      have hqx : q = x.1.1 :=
        tok_head_name (hkeys x (List.mem_cons_self _ _)).2 hq (occursAt_zero.mp hocc)
      refine ⟨[], x, rest, rfl, hqx, ?_⟩
      show g = (tokText s0 []).length
      simp only [tokText]
      omega
    | succ j =>
      rw [hg2] at hocc
      have hocc2 : OccursAt ('{' :: (q ++ ['}'])) ((x.1.1 ++ ['}']) ++ tokText x.2 rest) j :=
        occursAt_succ_cons.mp (by simpa [List.cons_append] using hocc)
      have hnokey : '{' ∉ x.1.1 ++ ['}'] := by
        intro hm
        rcases List.mem_append.mp hm with hm2 | hm2
        · exact (hkeys x (List.mem_cons_self _ _)).1 hm2
        · exact absurd (List.mem_singleton.mp hm2) (by decide)
      obtain ⟨hle2, hocc3⟩ := occ_shift (x.1.1 ++ ['}']) hnokey hocc2
      obtain ⟨pre, e, post, hdec, hqe, hgpre⟩ :=
        ih x.2 q (j - (x.1.1 ++ ['}']).length)
          (hsegs x (List.mem_cons_self _ _))
          (fun y hy => hkeys y (List.mem_cons_of_mem _ hy))
          (fun y hy => hsegs y (List.mem_cons_of_mem _ hy)) hq hocc3
      refine ⟨x :: pre, e, post, by simp [hdec], hqe, ?_⟩
      have hlen : (tokText s0 (x :: pre)).length =
          s0.length + (x.1.1.length + 2) + (tokText x.2 pre).length := by
        simp [tokText, List.length_append]
        omega
      have hl1 : (x.1.1 ++ ['}']).length = x.1.1.length + 1 := by simp
      rw [hl1] at hle2 hgpre
      rw [hlen]
      omega

/-- Splitting a list at an element is unique when a projection of the list
has no duplicates and the split elements agree on the projection. -/
theorem nodup_split_eq {α β : Type} (f : α → β) :
    ∀ (pre : List α) {e : α} {post pre2 : List α} {e2 : α} {post2 : List α},
    pre ++ e :: post = pre2 ++ e2 :: post2 → f e = f e2 →
    ((pre ++ e :: post).map f).Nodup → pre = pre2 := by
  intro pre
  induction pre with
  | nil =>
    intro e post pre2 e2 post2 h hf hnd
    cases pre2 with
    | nil => rfl
    | cons b pre2 =>
      exfalso
      simp only [List.nil_append, List.cons_append] at h
      injection h with h1 h2
      have he2 : e2 ∈ post := by
        rw [h2]
        exact List.mem_append_right _ (List.mem_cons_self _ _)
      simp only [List.nil_append, List.map_cons, List.nodup_cons] at hnd
      exact hnd.1 (hf ▸ List.mem_map_of_mem f he2)
  | cons a pre ih =>
    intro e post pre2 e2 post2 h hf hnd
    cases pre2 with
    | nil =>
      exfalso
      simp only [List.nil_append, List.cons_append] at h
      injection h with h1 h2
      have he : e ∈ pre ++ e :: post :=
        List.mem_append_right _ (List.mem_cons_self _ _)
      simp only [List.cons_append, List.map_cons, List.nodup_cons] at hnd
      apply hnd.1
      rw [show f a = f e from by rw [h1, ← hf]]
      exact List.mem_map_of_mem f he
    | cons b pre2 =>
      simp only [List.cons_append] at h
      injection h with h1 h2
      simp only [List.cons_append, List.map_cons, List.nodup_cons] at hnd
      rw [h1, ih h2 hf hnd.2]

/-- Each token of a layout does occur at its own position. -/
theorem tokText_occursAt (s0 : List Char) (pre : List ((List Char × Value) × List Char))
    (e : (List Char × Value) × List Char)
    (post : List ((List Char × Value) × List Char)) :
    OccursAt ('{' :: (e.1.1 ++ ['}'])) (tokText s0 (pre ++ e :: post))
      (tokText s0 pre).length := by
  rw [tokText_append]
  unfold OccursAt
  rw [show (tokText s0 pre).length = (tokText s0 pre).length + 0 from rfl,
    List.append_assoc, drop_append_length]
  simp only [List.drop_zero]
  exact ⟨tokText e.2 post, by simp⟩

/-- With pairwise-distinct names, a token occurs exactly once in the
rendered layout. -/
theorem tokText_countOcc_one {s0 : List Char}
    {pre : List ((List Char × Value) × List Char)}
    {e : (List Char × Value) × List Char}
    {post : List ((List Char × Value) × List Char)}
    (hs0 : braceFree s0)
    (hkeys : ∀ x ∈ pre ++ e :: post, braceFree x.1.1)
    (hsegs : ∀ x ∈ pre ++ e :: post, braceFree x.2)
    (hnd : ((pre ++ e :: post).map (fun x => x.1.1)).Nodup) :
    countOcc ('{' :: (e.1.1 ++ ['}'])) (tokText s0 (pre ++ e :: post)) = 1 := by
  apply countOcc_eq_one (by simp) (tokText_occursAt s0 pre e post)
  intro j hj
  obtain ⟨pre2, e2, post2, hdec, hqe, hgpre⟩ :=
    tokText_occ_elim _ s0 _ j hs0.1 hkeys (fun x hx => (hsegs x hx).1)
      (hkeys e (List.mem_append_right _ (List.mem_cons_self _ _))).2 hj
  have hpre : pre = pre2 := nodup_split_eq (fun x => x.1.1) pre hdec hqe hnd
  rw [hgpre, ← hpre]

/-- A token whose name is none of the layout's names does not occur. -/
theorem tokText_containsSub_none {s0 q : List Char}
    {rest : List ((List Char × Value) × List Char)}
    (hs0 : braceFree s0) (hkeys : ∀ x ∈ rest, braceFree x.1.1)
    (hsegs : ∀ x ∈ rest, braceFree x.2) (hq : '}' ∉ q)
    (hnot : q ∉ rest.map (fun x => x.1.1)) :
    containsSub ('{' :: (q ++ ['}'])) (tokText s0 rest) = false := by
  rw [containsSub_eq_false]
  intro g hg
  obtain ⟨pre, e, post, hdec, hqe, _⟩ :=
    tokText_occ_elim rest s0 q g hs0.1 hkeys (fun x hx => (hsegs x hx).1) hq hg
  apply hnot
  rw [hdec, hqe]
  exact List.mem_map_of_mem _ (List.mem_append_right _ (List.mem_cons_self _ _))

theorem tokFilledText_braceFree :
    ∀ (rest : List ((List Char × Value) × List Char)) (s0 : List Char),
    braceFree s0 → (∀ x ∈ rest, braceFree x.2) →
    (∀ x ∈ rest, ∀ s, x.1.2 = some s → braceFree s) →
    braceFree (tokFilledText s0 rest) := by
  intro rest
  induction rest with
  | nil => intro s0 hs0 _ _; exact hs0
  | cons x rest ih =>
    intro s0 hs0 hsegs hvals
    show braceFree (s0 ++ replacementFor x.1.1 x.1.2 ++ tokFilledText x.2 rest)
    refine braceFree_append (braceFree_append hs0 ?_) ?_
    · exact replacementFor_braceFree (fun s hs => hvals x (List.mem_cons_self _ _) s hs)
    · exact ih x.2 (hsegs x (List.mem_cons_self _ _))
        (fun y hy => hsegs y (List.mem_cons_of_mem _ hy))
        (fun y hy => hvals y (List.mem_cons_of_mem _ hy))

theorem absorb_tokText : ∀ (pre : List ((List Char × Value) × List Char))
    (s0 mid s2 : List Char) (post : List ((List Char × Value) × List Char)),
    tokText (absorb s0 pre mid s2 post).1 (absorb s0 pre mid s2 post).2 =
      tokText s0 pre ++ mid ++ tokText s2 post := by
  intro pre
  induction pre with
  | nil =>
    intro s0 mid s2 post
    show tokText (s0 ++ mid ++ s2) post = tokText s0 [] ++ mid ++ tokText s2 post
    rw [tokText_seg_append post (s0 ++ mid) s2]
    simp [tokText, List.append_assoc]
  | cons a pre ih =>
    intro s0 mid s2 post
    show tokText s0 ((a.1, (absorb a.2 pre mid s2 post).1) ::
        (absorb a.2 pre mid s2 post).2) = _
    simp only [tokText]
    rw [ih]
    simp [List.append_assoc]

theorem absorb_tokFilled : ∀ (pre : List ((List Char × Value) × List Char))
    (s0 mid s2 : List Char) (post : List ((List Char × Value) × List Char)),
    tokFilledText (absorb s0 pre mid s2 post).1 (absorb s0 pre mid s2 post).2 =
      tokFilledText s0 pre ++ mid ++ tokFilledText s2 post := by
  intro pre
  induction pre with
  | nil =>
    intro s0 mid s2 post
    show tokFilledText (s0 ++ mid ++ s2) post = tokFilledText s0 [] ++ mid ++ tokFilledText s2 post
    rw [tokFilled_seg_append post (s0 ++ mid) s2]
    simp [tokFilledText, List.append_assoc]
  | cons a pre ih =>
    intro s0 mid s2 post
    show tokFilledText s0 ((a.1, (absorb a.2 pre mid s2 post).1) ::
        (absorb a.2 pre mid s2 post).2) = _
    simp only [tokFilledText]
    rw [ih]
    simp [List.append_assoc]

theorem absorb_fst_braceFree : ∀ (pre : List ((List Char × Value) × List Char))
    {s0 mid s2 : List Char} (post : List ((List Char × Value) × List Char)),
    braceFree s0 → braceFree mid → braceFree s2 →
    braceFree (absorb s0 pre mid s2 post).1 := by
  intro pre
  induction pre with
  | nil =>
    intro s0 mid s2 post hs0 hmid hs2
    exact braceFree_append (braceFree_append hs0 hmid) hs2
  | cons a pre _ =>
    intro s0 mid s2 post hs0 _ _
    exact hs0

theorem absorb_payloads : ∀ (pre : List ((List Char × Value) × List Char))
    (s0 mid s2 : List Char) (post : List ((List Char × Value) × List Char)),
    ((absorb s0 pre mid s2 post).2).map Prod.fst =
      pre.map Prod.fst ++ post.map Prod.fst := by
  intro pre
  induction pre with
  | nil => intro s0 mid s2 post; simp [absorb]
  | cons a pre ih =>
    intro s0 mid s2 post
    show ((a.1, (absorb a.2 pre mid s2 post).1) ::
        (absorb a.2 pre mid s2 post).2).map Prod.fst = _
    simp only [List.map_cons, List.cons_append]
    rw [ih]

theorem absorb_segs : ∀ (pre : List ((List Char × Value) × List Char))
    {s0 mid s2 : List Char} {post : List ((List Char × Value) × List Char)},
    braceFree mid → braceFree s2 →
    (∀ a ∈ pre, braceFree a.2) → (∀ b ∈ post, braceFree b.2) →
    ∀ x ∈ (absorb s0 pre mid s2 post).2, braceFree x.2 := by
  intro pre
  induction pre with
  | nil =>
    intro s0 mid s2 post _ _ _ hpost x hx
    exact hpost x hx
  | cons a pre ih =>
    intro s0 mid s2 post hmid hs2 hpre hpost x hx
    rcases List.mem_cons.mp hx with hx2 | hx2
    · rw [hx2]
      exact absorb_fst_braceFree pre post (hpre a (List.mem_cons_self _ _)) hmid hs2
    · exact ih hmid hs2 (fun y hy => hpre y (List.mem_cons_of_mem _ hy)) hpost x hx2

/-- Replacing one token of a layout whose names are pairwise distinct: the
unique occurrence is the token itself, and the result splices the
transformed value between the surrounding layout parts. -/
theorem replacePH_mixed {q : Paragraph} {s0 : List Char}
    {pre : List ((List Char × Value) × List Char)}
    {e : (List Char × Value) × List Char}
    {post : List ((List Char × Value) × List Char)} (v : Value)
    (hq : renderedText q = tokText s0 (pre ++ e :: post))
    (hs0 : braceFree s0)
    (hkeys : ∀ x ∈ pre ++ e :: post, braceFree x.1.1)
    (hsegs : ∀ x ∈ pre ++ e :: post, braceFree x.2)
    (hnd : ((pre ++ e :: post).map (fun x => x.1.1)).Nodup) :
    renderedText (replace_placeholder_in_paragraph q e.1.1 v).1 =
      tokText s0 pre ++ replacementFor e.1.1 v ++ tokText e.2 post ∧
    (replace_placeholder_in_paragraph q e.1.1 v).2 = true := by
  have hcount : countOcc ('{' :: (e.1.1 ++ ['}'])) (renderedText q) = 1 := by
    rw [hq]
    exact tokText_countOcc_one hs0 hkeys hsegs hnd
  obtain ⟨hflag, s, hfind, hrend⟩ := replacePH_unique_occ q e.1.1 v hcount
  have hso := (findSub_some hfind).1
  rw [hq] at hso
  obtain ⟨pre2, e2, post2, hdec, hqe, hgpre⟩ :=
    tokText_occ_elim _ s0 _ s hs0.1 hkeys (fun x hx => (hsegs x hx).1)
      (hkeys e (List.mem_append_right _ (List.mem_cons_self _ _))).2 hso
  have hpre : pre = pre2 := nodup_split_eq (fun x => x.1.1) pre hdec hqe hnd
  have hs2 : s = (tokText s0 pre).length := by rw [hgpre, ← hpre]
  refine ⟨?_, hflag⟩
  rw [hrend, hq, tokText_append, hs2]
  have ht : (tokText s0 pre ++ ('{' :: (e.1.1 ++ ['}'])) ++ tokText e.2 post).take
      (tokText s0 pre).length = tokText s0 pre := by
    rw [List.append_assoc]
    exact List.take_left _ _
  have hd : (tokText s0 pre ++ ('{' :: (e.1.1 ++ ['}'])) ++ tokText e.2 post).drop
      ((tokText s0 pre).length + ('{' :: (e.1.1 ++ ['}'])).length) =
      tokText e.2 post := by
    rw [List.append_assoc, drop_append_length]
    exact List.drop_left _ _
  rw [ht, hd]

/-- The exact-match pass over a record suffix `d` drawn from a record `D`
with pairwise-distinct brace-free keys: tokens whose name is a key of `d`
are replaced with their record value, the remaining tokens survive with
their payloads, and the fully-filled text of the layout is preserved. -/
theorem foldl_exact_mixed (D : Data)
    (hndD : (D.map Prod.fst).Nodup)
    (hkeysD : ∀ kv ∈ D, braceFree kv.1)
    (hvalsD : ∀ kv ∈ D, ∀ s, kv.2 = some s → braceFree s) :
    ∀ (d : Data) (s0 : List Char)
    (rest : List ((List Char × Value) × List Char)) (q : Paragraph),
    (∀ kv ∈ d, kv ∈ D) →
    braceFree s0 →
    (∀ x ∈ rest, braceFree x.1.1) →
    (∀ x ∈ rest, braceFree x.2) →
    (∀ x ∈ rest, ∀ s, x.1.2 = some s → braceFree s) →
    (∀ x ∈ rest, x.1.1 ∈ d.map Prod.fst → x.1 ∈ d) →
    ((rest.map (fun x => x.1.1)).Nodup) →
    renderedText q = tokText s0 rest →
    ∃ s1 rest1,
      renderedText (d.foldl (fun r kv =>
        (replace_placeholder_in_paragraph r kv.1 kv.2).1) q) = tokText s1 rest1 ∧
      braceFree s1 ∧
      (∀ x ∈ rest1, x.1 ∈ rest.map Prod.fst ∧ x.1.1 ∉ d.map Prod.fst ∧ braceFree x.2) ∧
      ((rest1.map (fun x => x.1.1)).Nodup) ∧
      tokFilledText s1 rest1 = tokFilledText s0 rest := by
  intro d
  induction d with
  | nil =>
    intro s0 rest q _ hs0 _ hsegs _ _ hndk hq
    exact ⟨s0, rest, hq, hs0,
      fun x hx => ⟨List.mem_map_of_mem _ hx, by simp, hsegs x hx⟩, hndk, rfl⟩
  | cons kv d ih =>
    intro s0 rest q hsub hs0 hkeys hsegs hvals hlit hndk hq
    rw [List.foldl_cons]
    have hkvD := hsub kv (List.mem_cons_self _ _)
    by_cases hin : kv.1 ∈ rest.map (fun x => x.1.1)
    · obtain ⟨x, hx, hxname⟩ := List.mem_map.mp hin
      obtain ⟨pre, post, hsplit⟩ := List.append_of_mem hx
      have hx1d : x.1 ∈ kv :: d := hlit x hx
        (by rw [hxname]; exact List.mem_map_of_mem _ (List.mem_cons_self _ _))
      have hxkv : x.1 = kv := List.inj_on_of_nodup_map hndD (hsub x.1 hx1d) hkvD hxname
      subst hsplit
      have hmapn : ((pre ++ x :: post).map (fun y => y.1.1)) =
          pre.map (fun y => y.1.1) ++ kv.1 :: post.map (fun y => y.1.1) := by
        simp [hxname]
      have hnd2 : (pre.map (fun y => y.1.1) ++
          kv.1 :: post.map (fun y => y.1.1)).Nodup := by
        rw [← hmapn]
        exact hndk
      have hnpre : kv.1 ∉ pre.map (fun y => y.1.1) :=
        fun hm => (List.disjoint_of_nodup_append hnd2) hm (List.mem_cons_self _ _)
      have hnpost : kv.1 ∉ post.map (fun y => y.1.1) :=
        (List.nodup_cons.mp (List.nodup_append.mp hnd2).2.1).1
      have hstep := replacePH_mixed kv.2 hq hs0 hkeys hsegs hndk
      rw [hxname] at hstep
      have hrepbf : braceFree (replacementFor kv.1 kv.2) :=
        replacementFor_braceFree (fun s hs => hvalsD kv hkvD s hs)
      have hx2bf : braceFree x.2 := hsegs x hx
      have hq2 : renderedText (replace_placeholder_in_paragraph q kv.1 kv.2).1 =
          tokText (absorb s0 pre (replacementFor kv.1 kv.2) x.2 post).1
            (absorb s0 pre (replacementFor kv.1 kv.2) x.2 post).2 := by
        rw [absorb_tokText, hstep.1]
      have hz : ∀ y ∈ (absorb s0 pre (replacementFor kv.1 kv.2) x.2 post).2,
          ∃ z, (z ∈ pre ∨ z ∈ post) ∧ y.1 = z.1 := by
        intro y hy
        have hym : y.1 ∈ ((absorb s0 pre (replacementFor kv.1 kv.2) x.2 post).2).map
            Prod.fst := List.mem_map_of_mem _ hy
        rw [absorb_payloads] at hym
        rcases List.mem_append.mp hym with hm | hm
        · obtain ⟨z, hz1, hz2⟩ := List.mem_map.mp hm
          exact ⟨z, Or.inl hz1, hz2.symm⟩
        · obtain ⟨z, hz1, hz2⟩ := List.mem_map.mp hm
          exact ⟨z, Or.inr hz1, hz2.symm⟩
      have hzrest : ∀ z, (z ∈ pre ∨ z ∈ post) → z ∈ pre ++ x :: post := by
        intro z hz2
        rcases hz2 with h | h
        · exact List.mem_append_left _ h
        · exact List.mem_append_right _ (List.mem_cons_of_mem _ h)
      have hzname : ∀ z, (z ∈ pre ∨ z ∈ post) → z.1.1 ≠ kv.1 := by
        intro z hz2 hez
        rcases hz2 with h | h
        · exact hnpre (hez ▸ List.mem_map_of_mem (fun y => y.1.1) h)
        · exact hnpost (hez ▸ List.mem_map_of_mem (fun y => y.1.1) h)
      have hnamesA : ((absorb s0 pre (replacementFor kv.1 kv.2) x.2 post).2).map
          (fun y => y.1.1) = pre.map (fun y => y.1.1) ++ post.map (fun y => y.1.1) := by
        have h1 : ((absorb s0 pre (replacementFor kv.1 kv.2) x.2 post).2).map
            (fun y => y.1.1) =
            (((absorb s0 pre (replacementFor kv.1 kv.2) x.2 post).2).map
              Prod.fst).map Prod.fst := by
          rw [List.map_map]
          rfl
        rw [h1, absorb_payloads, List.map_append, List.map_map, List.map_map]
        rfl
      obtain ⟨s1, rest1, hr1, hbf1, hprop1, hnd1, hfill1⟩ := ih
        (absorb s0 pre (replacementFor kv.1 kv.2) x.2 post).1
        (absorb s0 pre (replacementFor kv.1 kv.2) x.2 post).2
        (replace_placeholder_in_paragraph q kv.1 kv.2).1
        (fun kv2 h2 => hsub kv2 (List.mem_cons_of_mem _ h2))
        (absorb_fst_braceFree pre post hs0 hrepbf hx2bf)
        (by
          intro y hy
          obtain ⟨z, hzm, hzeq⟩ := hz y hy
          rw [hzeq]
          exact hkeys z (hzrest z hzm))
        (absorb_segs pre hrepbf hx2bf
          (fun a ha => hsegs a (List.mem_append_left _ ha))
          (fun b hb => hsegs b (List.mem_append_right _ (List.mem_cons_of_mem _ hb))))
        (by
          intro y hy s hs
          obtain ⟨z, hzm, hzeq⟩ := hz y hy
          exact hvals z (hzrest z hzm) s (by rw [← hzeq]; exact hs))
        (by
          intro y hy hmem
          obtain ⟨z, hzm, hzeq⟩ := hz y hy
          rw [hzeq] at hmem ⊢
          have hzin : z.1 ∈ kv :: d := hlit z (hzrest z hzm)
            (by rw [List.map_cons]; exact List.mem_cons_of_mem _ hmem)
          rcases List.mem_cons.mp hzin with h2 | h2
          · exact absurd (by rw [h2] : z.1.1 = kv.1) (hzname z hzm)
          · exact h2)
        (by
          rw [hnamesA]
          refine List.Nodup.sublist ?_ hnd2
          exact List.Sublist.append_left (List.sublist_cons_self _ _) _)
        hq2
      refine ⟨s1, rest1, hr1, hbf1, ?_, hnd1, ?_⟩
      · intro y hy
        obtain ⟨h1, h2, h3⟩ := hprop1 y hy
        rw [absorb_payloads] at h1
        have hyrest : y.1 ∈ (pre ++ x :: post).map Prod.fst := by
          rw [List.map_append, List.map_cons]
          rcases List.mem_append.mp h1 with hm | hm
          · exact List.mem_append_left _ hm
          · exact List.mem_append_right _ (List.mem_cons_of_mem _ hm)
        have hyne : y.1.1 ≠ kv.1 := by
          rcases List.mem_append.mp h1 with hm | hm
          · obtain ⟨z, hz1, hz2⟩ := List.mem_map.mp hm
            rw [← hz2]
            exact hzname z (Or.inl hz1)
          · obtain ⟨z, hz1, hz2⟩ := List.mem_map.mp hm
            rw [← hz2]
            exact hzname z (Or.inr hz1)
        refine ⟨hyrest, ?_, h3⟩
        rw [List.map_cons]
        intro hmem
        rcases List.mem_cons.mp hmem with h4 | h4
        · exact hyne h4
        · exact h2 h4
      · rw [hfill1, absorb_tokFilled, tokFilled_append, hxkv]
    · have hcont : containsSub ('{' :: (kv.1 ++ ['}'])) (renderedText q) = false := by
        rw [hq]
        exact tokText_containsSub_none hs0 hkeys hsegs (hkeysD kv hkvD).2 hin
      rw [replacePH_not_found kv.2 hcont]
      obtain ⟨s1, rest1, hr1, hbf1, hprop1, hnd1, hfill1⟩ := ih s0 rest q
        (fun kv2 h2 => hsub kv2 (List.mem_cons_of_mem _ h2)) hs0 hkeys hsegs hvals
        (by
          intro y hy hmem
          have hyin : y.1 ∈ kv :: d := hlit y hy
            (by rw [List.map_cons]; exact List.mem_cons_of_mem _ hmem)
          rcases List.mem_cons.mp hyin with h2 | h2
          · exact absurd (by rw [← h2]; exact List.mem_map_of_mem (fun z => z.1.1) hy) hin
          · exact h2)
        hndk hq
      refine ⟨s1, rest1, hr1, hbf1, ?_, hnd1, hfill1⟩
      intro y hy
      obtain ⟨h1, h2, h3⟩ := hprop1 y hy
      refine ⟨h1, ?_, h3⟩
      rw [List.map_cons]
      intro hmem
      rcases List.mem_cons.mp hmem with h4 | h4
      · obtain ⟨z, hz1, hz2⟩ := List.mem_map.mp h1
        apply hin
        rw [show kv.1 = z.1.1 from by rw [← h4, ← hz2]]
        exact List.mem_map_of_mem (fun w => w.1.1) hz1
      · exact h2 h4

theorem takeWhile_no_close : ∀ (n t : List Char), '}' ∉ n →
    (n ++ '}' :: t).takeWhile (fun d => ¬ d = '}') = n := by
  intro n
  induction n with
  | nil => intro t _; simp
  | cons a n ih =>
    intro t hn
    have ha : ¬ a = '}' := fun h => hn (h ▸ List.mem_cons_self _ _)
    simp only [List.cons_append, List.takeWhile_cons]
    rw [if_pos (by simpa using ha), ih t (fun hm => hn (List.mem_cons_of_mem _ hm))]

theorem dropWhile_no_close : ∀ (n t : List Char), '}' ∉ n →
    (n ++ '}' :: t).dropWhile (fun d => ¬ d = '}') = '}' :: t := by
  intro n
  induction n with
  | nil => intro t _; simp
  | cons a n ih =>
    intro t hn
    have ha : ¬ a = '}' := fun h => hn (h ▸ List.mem_cons_self _ _)
    simp only [List.cons_append, List.dropWhile_cons]
    rw [if_pos (by simpa using ha), ih t (fun hm => hn (List.mem_cons_of_mem _ hm))]

theorem span_no_close {n t : List Char} (hn : '}' ∉ n) :
    (n ++ '}' :: t).span (fun d => ¬ d = '}') = (n, '}' :: t) := by
  rw [List.span_eq_take_drop, takeWhile_no_close n t hn, dropWhile_no_close n t hn]

theorem findallF_congr : ∀ (f1 : Nat) (s : List Char) (f2 : Nat),
    s.length ≤ f1 → s.length ≤ f2 → findallF f1 s = findallF f2 s := by
  intro f1
  induction f1 with
  | zero =>
    intro s f2 h1 h2
    have hs : s = [] := List.length_eq_zero.mp (by omega)
    subst hs
    cases f2 <;> rfl
  | succ f1 ih =>
    intro s f2 h1 h2
    cases s with
    | nil => cases f2 <;> rfl
    | cons c cs =>
      cases f2 with
      | zero => simp at h2
      | succ f2 =>
        simp only [findallF]
        simp only [List.length_cons] at h1 h2
        by_cases hc : c = '{'
        · rw [if_pos hc, if_pos hc]
          cases hsp : cs.span (fun d => ¬ d = '}') with
          | mk name rest2 =>
            have hlen : name.length + rest2.length = cs.length := by
              have h3 : name ++ rest2 = cs := by
                have h4 := List.span_eq_take_drop (fun d => ¬ d = '}') cs
                rw [hsp] at h4
                injection h4 with h5 h6
                rw [h5, h6]
                exact List.takeWhile_append_dropWhile _ cs
              have := congrArg List.length h3
              simpa [List.length_append] using this
            cases rest2 with
            | nil => rfl
            | cons r rs =>
              dsimp only
              by_cases hname : name = []
              · rw [if_pos hname, if_pos hname]
                exact ih cs f2 (by omega) (by omega)
              · rw [if_neg hname, if_neg hname]
                have hrs : rs.length ≤ cs.length - 1 := by
                  simp only [List.length_cons] at hlen
                  omega
                rw [ih rs f2 (by omega) (by omega)]
        · rw [if_neg hc, if_neg hc]
          exact ih cs f2 (by omega) (by omega)

theorem findall_cons_skip {c : Char} {t : List Char} (hc : ¬ c = '{') :
    findall (c :: t) = findall t := by
  show findallF (c :: t).length (c :: t) = findall t
  rw [List.length_cons]
  simp only [findallF]
  rw [if_neg hc]
  rfl

theorem findall_seg : ∀ (A t : List Char), '{' ∉ A →
    findall (A ++ t) = findall t := by
  intro A
  induction A with
  | nil => intro t _; rfl
  | cons a A ih =>
    intro t hA
    rw [List.cons_append,
      findall_cons_skip (fun h => hA (h ▸ List.mem_cons_self _ _)),
      ih t (fun hm => hA (List.mem_cons_of_mem _ hm))]

theorem findall_token {n t : List Char} (hn : '}' ∉ n) (hne : n ≠ []) :
    findall ('{' :: (n ++ '}' :: t)) = n :: findall t := by
  show findallF ('{' :: (n ++ '}' :: t)).length ('{' :: (n ++ '}' :: t)) = _
  have hlen : ('{' :: (n ++ '}' :: t)).length = (n.length + t.length + 1) + 1 := by
    simp [List.length_append]
    omega
  rw [hlen]
  simp only [findallF]
  rw [if_pos trivial, span_no_close hn]
  dsimp only
  rw [if_neg hne]
  congr 1
  exact findallF_congr _ t _ (by omega) (le_refl _)

/-- `re.findall` on a rendered layout with nonempty brace-free names and
brace-free segments returns exactly the layout's names, in order. -/
theorem findall_tokText : ∀ (rest : List ((List Char × Value) × List Char))
    (s0 : List Char),
    '{' ∉ s0 → (∀ x ∈ rest, braceFree x.1.1) → (∀ x ∈ rest, x.1.1 ≠ []) →
    (∀ x ∈ rest, '{' ∉ x.2) →
    findall (tokText s0 rest) = rest.map (fun x => x.1.1) := by
  intro rest
  induction rest with
  | nil => intro s0 hs0 _ _ _; exact findall_no_brace hs0
  | cons x rest ih =>
    intro s0 hs0 hkeys hne hsegs
    have hform : tokText s0 (x :: rest) =
        s0 ++ ('{' :: (x.1.1 ++ '}' :: tokText x.2 rest)) := by
      simp [tokText, List.append_assoc]
    rw [hform, findall_seg s0 _ hs0,
      findall_token (hkeys x (List.mem_cons_self _ _)).2 (hne x (List.mem_cons_self _ _)),
      ih x.2 (hsegs x (List.mem_cons_self _ _))
        (fun y hy => hkeys y (List.mem_cons_of_mem _ hy))
        (fun y hy => hne y (List.mem_cons_of_mem _ hy))
        (fun y hy => hsegs y (List.mem_cons_of_mem _ hy))]
    rfl

/-- The placeholder-to-record-entry map built by
`_find_placeholder_matches`, on a list of pairwise-distinct names that all
resolve under normalized lookup: one entry per name, in order, each carrying
its normalized resolution. -/
theorem matches_go (nd : List (List Char × (List Char × Value))) :
    ∀ (names : List (List Char)) (acc : List (List Char × (List Char × Value))),
    (∀ n ∈ names, (alookup nd (normalize_key n)).isSome) →
    (∀ n ∈ names, alookup acc n = none) →
    names.Nodup →
    ∃ ms2, names.foldl (fun acc2 ph =>
        match alookup nd (normalize_key ph) with
        | some kv => if (alookup acc2 ph).isSome then acc2 else acc2 ++ [(ph, kv)]
        | none => acc2) acc = acc ++ ms2 ∧
      ms2.map Prod.fst = names ∧
      (∀ m ∈ ms2, alookup nd (normalize_key m.1) = some m.2) := by
  intro names
  induction names with
  | nil => intro acc _ _ _; exact ⟨[], by simp, rfl, by simp⟩
  | cons n names ih =>
    intro acc hres hacc hnd
    rw [List.foldl_cons]
    obtain ⟨kv, hkv⟩ := Option.isSome_iff_exists.mp (hres n (List.mem_cons_self _ _))
    have hstep : (match alookup nd (normalize_key n) with
        | some kv2 => if (alookup acc n).isSome then acc else acc ++ [(n, kv2)]
        | none => acc) = acc ++ [(n, kv)] := by
      rw [hkv, hacc n (List.mem_cons_self _ _)]
      rfl
    rw [hstep]
    obtain ⟨ms2, hfold, hmap, hres2⟩ := ih (acc ++ [(n, kv)])
      (fun m hm => hres m (List.mem_cons_of_mem _ hm))
      (fun m hm => by
        rw [alookup_append, hacc m (List.mem_cons_of_mem _ hm)]
        have hne : ¬ n = m := fun h => (List.nodup_cons.mp hnd).1 (h ▸ hm)
        simp [alookup, hne])
      (List.nodup_cons.mp hnd).2
    refine ⟨(n, kv) :: ms2, ?_, ?_, ?_⟩
    · rw [hfold]
      simp [List.append_assoc]
    · simp [hmap]
    · intro m hm
      rcases List.mem_cons.mp hm with h2 | h2
      · rw [h2]
        exact hkv
      · exact hres2 m h2

/-- When the matches' names agree with the layout's names in order and each
match carries the normalized resolution of its name, which for each token
resolves to that token's value, the matches carry exactly the layout's
(name, value) payloads. -/
theorem ms_payload_eq (nd : List (List Char × (List Char × Value))) :
    ∀ (ms : List (List Char × (List Char × Value)))
    (rest : List ((List Char × Value) × List Char)),
    ms.map Prod.fst = rest.map (fun x => x.1.1) →
    (∀ m ∈ ms, alookup nd (normalize_key m.1) = some m.2) →
    (∀ x ∈ rest, ∃ k0, alookup nd (normalize_key x.1.1) = some (k0, x.1.2)) →
    ms.map (fun m => (m.1, m.2.2)) = rest.map Prod.fst := by
  intro ms
  induction ms with
  | nil =>
    intro rest h _ _
    have : rest.map (fun x => x.1.1) = [] := h.symm
    rw [List.map_eq_nil.mp this]
    rfl
  | cons m ms ih =>
    intro rest h hres htok
    cases rest with
    | nil => simp at h
    | cons x rest2 =>
      simp only [List.map_cons] at h ⊢
      injection h with h1 h2
      obtain ⟨k0, hk0⟩ := htok x (List.mem_cons_self _ _)
      have hm := hres m (List.mem_cons_self _ _)
      rw [h1, hk0] at hm
      have hval : m.2 = (k0, x.1.2) := (Option.some.inj hm).symm
      rw [ih rest2 h2 (fun y hy => hres y (List.mem_cons_of_mem _ hy))
        (fun y hy => htok y (List.mem_cons_of_mem _ hy))]
      rw [h1, hval]

/-- The normalized-match pass over a layout whose matches carry exactly the
layout's (name, value) payloads in order: every remaining token is replaced
with its value, and for non-trainee templates the removal flag is
untouched. -/
theorem foldl_normalized_mixed (trainee : Bool) :
    ∀ (ms : List (List Char × (List Char × Value)))
    (rest : List ((List Char × Value) × List Char))
    (s0 : List Char) (q : Paragraph) (fl : Bool),
    braceFree s0 →
    (∀ x ∈ rest, braceFree x.1.1) →
    (∀ x ∈ rest, braceFree x.2) →
    (∀ x ∈ rest, ∀ s, x.1.2 = some s → braceFree s) →
    ((rest.map (fun x => x.1.1)).Nodup) →
    renderedText q = tokText s0 rest →
    ms.map (fun m => (m.1, m.2.2)) = rest.map Prod.fst →
    renderedText (ms.foldl (normalizedStep trainee) (q, renderedText q, fl)).1 =
      tokFilledText s0 rest ∧
    (trainee = false →
      (ms.foldl (normalizedStep trainee) (q, renderedText q, fl)).2.2 = fl) := by
  intro ms
  induction ms with
  | nil =>
    intro rest s0 q fl _ _ _ _ _ hq hms
    have hrest : rest = [] := List.map_eq_nil.mp hms.symm
    subst hrest
    exact ⟨hq, fun _ => rfl⟩
  | cons m ms ih =>
    intro rest s0 q fl hs0 hkeys hsegs hvals hndk hq hms
    cases rest with
    | nil => simp at hms
    | cons x rest2 =>
      simp only [List.map_cons] at hms
      injection hms with h1 h2
      have hname : m.1 = x.1.1 := by rw [← h1]
      have hval : m.2.2 = x.1.2 := by rw [← h1]
      rw [List.foldl_cons]
      have hcont : containsSub ('{' :: (m.1 ++ ['}'])) (renderedText q) = true := by
        rw [hname, hq]
        apply containsSub_iff.mpr
        refine ⟨(tokText s0 []).length, ?_⟩
        have := tokText_occursAt s0 [] x rest2
        simpa using this
      have hstep_eq : normalizedStep trainee (q, renderedText q, fl) m =
          ((replace_placeholder_in_paragraph q m.1 m.2.2).1,
           renderedText (replace_placeholder_in_paragraph q m.1 m.2.2).1,
           fl || (trainee && is_address_2_or_3_placeholder m.1 &&
             is_empty_value m.2.2 &&
             decide (pyStrip (renderedText
               (replace_placeholder_in_paragraph q m.1 m.2.2).1) = []))) := by
        unfold normalizedStep
        dsimp only
        rw [if_pos hcont]
      rw [hstep_eq, hname, hval]
      have hrep := @replacePH_mixed q s0 [] x rest2 x.1.2 hq hs0 hkeys hsegs hndk
      have hq1 : renderedText (replace_placeholder_in_paragraph q x.1.1 x.1.2).1 =
          tokText (s0 ++ replacementFor x.1.1 x.1.2 ++ x.2) rest2 := by
        rw [hrep.1, tokText_seg_append rest2 (s0 ++ replacementFor x.1.1 x.1.2) x.2]
        simp [tokText, List.append_assoc]
      have hs0b : braceFree (s0 ++ replacementFor x.1.1 x.1.2 ++ x.2) :=
        braceFree_append (braceFree_append hs0
          (replacementFor_braceFree (hvals x (List.mem_cons_self _ _))))
          (hsegs x (List.mem_cons_self _ _))
      have hih := ih rest2 (s0 ++ replacementFor x.1.1 x.1.2 ++ x.2)
        (replace_placeholder_in_paragraph q x.1.1 x.1.2).1
        (fl || (trainee && is_address_2_or_3_placeholder x.1.1 &&
          is_empty_value x.1.2 &&
          decide (pyStrip (renderedText
            (replace_placeholder_in_paragraph q x.1.1 x.1.2).1) = [])))
        hs0b
        (fun y hy => hkeys y (List.mem_cons_of_mem _ hy))
        (fun y hy => hsegs y (List.mem_cons_of_mem _ hy))
        (fun y hy => hvals y (List.mem_cons_of_mem _ hy))
        (List.nodup_cons.mp (by simpa using hndk)).2
        hq1 h2
      refine ⟨?_, ?_⟩
      · rw [hih.1, tokFilled_seg_append rest2 (s0 ++ replacementFor x.1.1 x.1.2) x.2]
        simp [tokFilledText, List.append_assoc]
      · intro ht
        rw [hih.2 ht, ht]
        simp

/-- Whole-paragraph processing on a layout whose tokens each resolve — by
literal key for the exact pass, or by normalized lookup for the normalized
pass: the paragraph's text becomes the fully filled layout (each resolved
value verbatim at its token's former position), the result has no brace, and
non-trainee paragraphs are never flagged for removal. -/
theorem processParagraph_mixed (trainee : Bool) {d : Data} {p : Paragraph}
    {s0 : List Char} {rest : List ((List Char × Value) × List Char)}
    (hnd : (d.map Prod.fst).Nodup)
    (hkeysD : ∀ kv ∈ d, braceFree kv.1)
    (hvalsD : ∀ kv ∈ d, ∀ s, kv.2 = some s → braceFree s)
    (hp : renderedText p = tokText s0 rest)
    (hs0 : braceFree s0)
    (hndk : (rest.map (fun x => x.1.1)).Nodup)
    (hrest : ∀ x ∈ rest, braceFree x.2 ∧
      (x.1 ∈ d ∨ (x.1.1 ∉ d.map Prod.fst ∧ x.1.1 ≠ [] ∧ braceFree x.1.1 ∧
        ∃ k0, alookup (buildNormalizedData d) (normalize_key x.1.1) =
          some (k0, x.1.2) ∧ (k0, x.1.2) ∈ d))) :
    renderedText (processParagraph trainee d p).1 = tokFilledText s0 rest ∧
    braceFree (renderedText (processParagraph trainee d p).1) ∧
    (trainee = false → (processParagraph trainee d p).2 = false) := by
  have hkeys : ∀ x ∈ rest, braceFree x.1.1 := by
    intro x hx
    rcases (hrest x hx).2 with h | h
    · exact hkeysD x.1 h
    · exact h.2.2.1
  have hsegs : ∀ x ∈ rest, braceFree x.2 := fun x hx => (hrest x hx).1
  have hvals : ∀ x ∈ rest, ∀ s, x.1.2 = some s → braceFree s := by
    intro x hx s hs
    rcases (hrest x hx).2 with h | h
    · exact hvalsD x.1 h s hs
    · obtain ⟨k0, _, hk0d⟩ := h.2.2.2
      exact hvalsD (k0, x.1.2) hk0d s hs
  have hlit : ∀ x ∈ rest, x.1.1 ∈ d.map Prod.fst → x.1 ∈ d := by
    intro x hx hmem
    rcases (hrest x hx).2 with h | h
    · exact h
    · exact absurd hmem h.1
  obtain ⟨s1, rest1, hr1, hbf1, hprop1, hnd1, hfill1⟩ :=
    foldl_exact_mixed d hnd hkeysD hvalsD d s0 rest p (fun kv h => h)
      hs0 hkeys hsegs hvals hlit hndk hp
  have hr1E : renderedText (exactPass d p) = tokText s1 rest1 := hr1
  have hT : ∀ y ∈ rest1, ∃ z ∈ rest, z.1 = y.1 := by
    intro y hy
    obtain ⟨z, hz, hzeq⟩ := List.mem_map.mp (hprop1 y hy).1
    exact ⟨z, hz, hzeq⟩
  have hnonlit : ∀ y ∈ rest1, y.1.1 ∉ d.map Prod.fst :=
    fun y hy => (hprop1 y hy).2.1
  have hkeys1 : ∀ y ∈ rest1, braceFree y.1.1 := by
    intro y hy
    obtain ⟨z, hz, hzeq⟩ := hT y hy
    rw [← hzeq]
    exact hkeys z hz
  have hzcase : ∀ y ∈ rest1, ∀ z ∈ rest, z.1 = y.1 →
      z.1.1 ∉ d.map Prod.fst := by
    intro y hy z _ hzeq
    rw [hzeq]
    exact hnonlit y hy
  have hne1 : ∀ y ∈ rest1, y.1.1 ≠ [] := by
    intro y hy
    obtain ⟨z, hz, hzeq⟩ := hT y hy
    rcases (hrest z hz).2 with h | h
    · exact absurd (List.mem_map_of_mem Prod.fst h) (hzcase y hy z hz hzeq)
    · rw [← hzeq]
      exact h.2.1
  have hres1 : ∀ y ∈ rest1, ∃ k0,
      alookup (buildNormalizedData d) (normalize_key y.1.1) =
        some (k0, y.1.2) := by
    intro y hy
    obtain ⟨z, hz, hzeq⟩ := hT y hy
    rcases (hrest z hz).2 with h | h
    · exact absurd (List.mem_map_of_mem Prod.fst h) (hzcase y hy z hz hzeq)
    · obtain ⟨k0, hk0, _⟩ := h.2.2.2
      exact ⟨k0, by rw [← hzeq]; exact hk0⟩
  have hvals1 : ∀ y ∈ rest1, ∀ s, y.1.2 = some s → braceFree s := by
    intro y hy s hs
    obtain ⟨z, hz, hzeq⟩ := hT y hy
    exact hvals z hz s (by rw [hzeq]; exact hs)
  have hsegs1 : ∀ y ∈ rest1, braceFree y.2 := fun y hy => (hprop1 y hy).2.2
  have hfl0 : braceFree (tokFilledText s0 rest) :=
    tokFilledText_braceFree rest s0 hs0 hsegs hvals
  have hfind : findall (renderedText (exactPass d p)) =
      rest1.map (fun y => y.1.1) := by
    rw [hr1E]
    exact findall_tokText rest1 s1 hbf1.1 hkeys1 hne1 (fun y hy => (hsegs1 y hy).1)
  obtain ⟨ms2, hms_eq, hms_map, hms_res⟩ := matches_go (buildNormalizedData d)
    (rest1.map (fun y => y.1.1)) []
    (by
      intro n hn
      obtain ⟨y, hy, hyeq⟩ := List.mem_map.mp hn
      obtain ⟨k0, hk0⟩ := hres1 y hy
      rw [← hyeq, hk0]
      rfl)
    (fun n _ => rfl)
    hnd1
  have hmatches : find_placeholder_matches (renderedText (exactPass d p)) d = ms2 := by
    unfold find_placeholder_matches
    dsimp only
    rw [hfind, hms_eq]
    exact List.nil_append _
  have hpayload : ms2.map (fun m => (m.1, m.2.2)) = rest1.map Prod.fst :=
    ms_payload_eq (buildNormalizedData d) ms2 rest1 hms_map hms_res hres1
  have hnorm := foldl_normalized_mixed trainee ms2 rest1 s1 (exactPass d p) false
    hbf1 hkeys1 hsegs1 hvals1 hnd1 hr1E hpayload
  unfold processParagraph
  dsimp only
  rw [hmatches]
  refine ⟨?_, ?_, ?_⟩
  · rw [hnorm.1, hfill1]
  · rw [hnorm.1, hfill1]
    exact hfl0
  · intro ht
    subst ht
    rw [hnorm.2 rfl]
    rfl

/-- **C2 counterexample.** A template paragraph with text `{X}a{X}b{X}` split
across four runs, and the record `X ↦ V`: every placeholder name found in the
template resolves under normalized lookup to a key of the record, yet the
document produced by `fill_placeholders` still contains the token `{X}` — the
exact pass replaces one occurrence and the normalized pass at most one more,
so the third survives, refuting the claim that no `{k}` token remains. -/
theorem c2_counterexample :
    ((findall (renderedText
        ([{ text := "\x7b".toList }, { text := "X\x7da\x7b".toList },
          { text := "X\x7db\x7b".toList }, { text := "X\x7d".toList }] : Paragraph))).all
      (fun ph => (alookup (buildNormalizedData [("X".toList, some "V".toList)])
        (normalize_key ph)).isSome) = true) ∧
    ((allParas (fill_placeholders "template.docx".toList
        (DocX.mk [[{ text := "\x7b".toList }, { text := "X\x7da\x7b".toList },
          { text := "X\x7db\x7b".toList }, { text := "X\x7d".toList }]] [])
        [("X".toList, some "V".toList)])).any
      (fun q => containsSub ('{' :: ("X".toList ++ ['}'])) (renderedText q)) = true) :=
  ⟨rfl, rfl⟩

/-- **C2 (amended).** For records with pairwise-distinct brace-free keys and
brace-free values, and templates in which every paragraph (free-standing or
in a table cell) is a brace-free text interleaved with well-formed
placeholder tokens whose names are pairwise distinct within the paragraph
and each resolve — either the name is literally a key of the record, or it
is none and its normalized form resolves under the normalized lookup of
`_find_placeholder_matches` to a record entry: the document produced by
`fill_placeholders` contains no remaining `\x7bk\x7d` token for any key
`k`, and (for non-trainee templates, where no paragraph is pruned) every
such paragraph survives into the output with each resolved value,
post-transform, verbatim at its token's former location.  The original
claim — with no bound on the number of same-name tokens per paragraph —
fails: a paragraph holding three `\x7bX\x7d` tokens keeps its third one,
since the exact pass replaces a single occurrence per key and the
normalized pass a single one more per name (`c2_counterexample`). -/
theorem c2_round_trip (templatePath : List Char) (d : Data) (doc : DocX)
    (hnd : (d.map Prod.fst).Nodup)
    (hkeys : ∀ kv ∈ d, braceFree kv.1)
    (hvals : ∀ kv ∈ d, ∀ s, kv.2 = some s → braceFree s)
    (hparas : ∀ p ∈ allParas doc, ∃ s0 rest,
      renderedText p = tokText s0 rest ∧ braceFree s0 ∧
      ((rest.map (fun x => x.1.1)).Nodup) ∧
      ∀ x ∈ rest, braceFree x.2 ∧
        (x.1 ∈ d ∨ (x.1.1 ∉ d.map Prod.fst ∧ x.1.1 ≠ [] ∧ braceFree x.1.1 ∧
          ∃ k0, alookup (buildNormalizedData d) (normalize_key x.1.1) =
            some (k0, x.1.2) ∧ (k0, x.1.2) ∈ d))) :
    (∀ q ∈ allParas (fill_placeholders templatePath doc d),
      ∀ kv ∈ d, containsSub ('{' :: (kv.1 ++ ['}'])) (renderedText q) = false) ∧
    (isTraineeTemplate templatePath = false →
      ∀ p ∈ allParas doc, ∀ s0 rest,
        renderedText p = tokText s0 rest → braceFree s0 →
        ((rest.map (fun x => x.1.1)).Nodup) →
        (∀ x ∈ rest, braceFree x.2 ∧
          (x.1 ∈ d ∨ (x.1.1 ∉ d.map Prod.fst ∧ x.1.1 ≠ [] ∧ braceFree x.1.1 ∧
            ∃ k0, alookup (buildNormalizedData d) (normalize_key x.1.1) =
              some (k0, x.1.2) ∧ (k0, x.1.2) ∈ d))) →
        (processParagraph false d p).1 ∈
          allParas (fill_placeholders templatePath doc d) ∧
        renderedText (processParagraph false d p).1 = tokFilledText s0 rest) := by
  have hbfout : ∀ p ∈ allParas doc,
      braceFree (renderedText
        (processParagraph (isTraineeTemplate templatePath) d p).1) := by
    intro p hp
    obtain ⟨s0, rest, hpdec, hs0, hndk, hrest⟩ := hparas p hp
    exact (processParagraph_mixed _ hnd hkeys hvals hpdec hs0 hndk hrest).2.1
  constructor
  · intro q hq kv _
    unfold fill_placeholders at hq
    obtain ⟨p, hp, rfl⟩ := mem_allParas_fillDocument hq
    exact containsSub_false_of_no_brace (hbfout p hp).1
  · intro htr p hp s0 rest hpdec hs0 hndk hrest
    unfold fill_placeholders
    rw [htr]
    have hm := processParagraph_mixed false hnd hkeys hvals hpdec hs0 hndk hrest
    exact ⟨mem_allParas_fillDocument_of_mem hp (hm.2.2 rfl), hm.1⟩

/-- Witness for `c2_round_trip`: the paragraph `Dear \x7bFirst\x7d
\x7bLast\x7d, \x7bCITY\x7d!`, split across three runs, holds three
distinct tokens — two resolved literally by the exact pass, one
(`\x7bCITY\x7d` against the key `city`) only by normalized lookup — and
the record sends it to `Dear Ada Lovelace, London!` in the output. -/
theorem c2_round_trip_witness :
    renderedText (processParagraph false
        [("First".toList, some "Ada".toList), ("Last".toList, some "Lovelace".toList),
         ("city".toList, some "London".toList)]
        [{ text := "Dear \x7bFir".toList }, { text := "st\x7d \x7bLast\x7d, \x7bCI".toList },
         { text := "TY\x7d!".toList }]).1 = "Dear Ada Lovelace, London!".toList ∧
    (processParagraph false
        [("First".toList, some "Ada".toList), ("Last".toList, some "Lovelace".toList),
         ("city".toList, some "London".toList)]
        [{ text := "Dear \x7bFir".toList }, { text := "st\x7d \x7bLast\x7d, \x7bCI".toList },
         { text := "TY\x7d!".toList }]).1 ∈
      allParas (fill_placeholders "template.docx".toList
        (DocX.mk [[{ text := "Dear \x7bFir".toList },
          { text := "st\x7d \x7bLast\x7d, \x7bCI".toList },
          { text := "TY\x7d!".toList }]] [])
        [("First".toList, some "Ada".toList), ("Last".toList, some "Lovelace".toList),
         ("city".toList, some "London".toList)]) := by
  have h := c2_round_trip "template.docx".toList
    [("First".toList, some "Ada".toList), ("Last".toList, some "Lovelace".toList),
     ("city".toList, some "London".toList)]
    (DocX.mk [[{ text := "Dear \x7bFir".toList },
      { text := "st\x7d \x7bLast\x7d, \x7bCI".toList },
      { text := "TY\x7d!".toList }]] [])
    (by decide)
    (by
      intro kv hkv
      simp only [List.mem_cons, List.not_mem_nil, or_false] at hkv
      rcases hkv with rfl | rfl | rfl
      · exact ⟨by decide, by decide⟩
      · exact ⟨by decide, by decide⟩
      · exact ⟨by decide, by decide⟩)
    (by
      intro kv hkv s hs
      simp only [List.mem_cons, List.not_mem_nil, or_false] at hkv
      rcases hkv with rfl | rfl | rfl
      · injection hs with h2
        rw [← h2]
        exact ⟨by decide, by decide⟩
      · injection hs with h2
        rw [← h2]
        exact ⟨by decide, by decide⟩
      · injection hs with h2
        rw [← h2]
        exact ⟨by decide, by decide⟩)
    (by
      intro p hp
      have hp2 : p = [{ text := "Dear \x7bFir".toList },
          { text := "st\x7d \x7bLast\x7d, \x7bCI".toList },
          { text := "TY\x7d!".toList }] := by
        simpa [allParas] using hp
      subst hp2
      refine ⟨"Dear ".toList,
        [(("First".toList, some "Ada".toList), " ".toList),
         (("Last".toList, some "Lovelace".toList), ", ".toList),
         (("CITY".toList, some "London".toList), "!".toList)],
        by decide, ⟨by decide, by decide⟩, by decide, ?_⟩
      intro x hx
      simp only [List.mem_cons, List.not_mem_nil, or_false] at hx
      rcases hx with rfl | rfl | rfl
      · exact ⟨⟨by decide, by decide⟩, Or.inl (by decide)⟩
      · exact ⟨⟨by decide, by decide⟩, Or.inl (by decide)⟩
      · exact ⟨⟨by decide, by decide⟩, Or.inr ⟨by decide, by decide,
          ⟨by decide, by decide⟩, "city".toList, by decide, by decide⟩⟩)
  obtain ⟨hmem, hren⟩ := h.2 (by decide)
    [{ text := "Dear \x7bFir".toList }, { text := "st\x7d \x7bLast\x7d, \x7bCI".toList },
     { text := "TY\x7d!".toList }]
    (by decide)
    "Dear ".toList
    [(("First".toList, some "Ada".toList), " ".toList),
     (("Last".toList, some "Lovelace".toList), ", ".toList),
     (("CITY".toList, some "London".toList), "!".toList)]
    (by decide) ⟨by decide, by decide⟩ (by decide)
    (by
      intro x hx
      simp only [List.mem_cons, List.not_mem_nil, or_false] at hx
      rcases hx with rfl | rfl | rfl
      · exact ⟨⟨by decide, by decide⟩, Or.inl (by decide)⟩
      · exact ⟨⟨by decide, by decide⟩, Or.inl (by decide)⟩
      · exact ⟨⟨by decide, by decide⟩, Or.inr ⟨by decide, by decide,
          ⟨by decide, by decide⟩, "city".toList, by decide, by decide⟩⟩)
  refine ⟨?_, hmem⟩
  rw [hren]
  decide

end WordToPdf
